import Mathlib

/-!
# Rule set of `lib/helpers/json-schema/validator.js`

A shallow embedding of the JSON-schema rules registered on `JsonSchema`, and of the
fan-out/join continuation that the `properties` and `items` rules hand to `field.async`.

Host values are modelled by `JSVal`.  Finite numbers are rationals, `NaN` is a separate
constructor, and arrays and objects carry the address of their allocation, which is all that
strict equality looks at.  Arrays given to a rule are dense.  Objects are plain objects, as
decoded data is: their prototype is `Object.prototype`, their properties are enumerable data
properties, and they are given as the list of their own properties in enumeration order.
Two names are special on such an object.  The method `hasOwnProperty` is looked up on the
object itself, so an own property of that name shadows it and the call throws.  A write to
the name `__proto__` that is not an own property reaches the inherited setter and creates no
own property.  The prototype itself is not part of the model.

Numbers are exact: a numeric string has the value it denotes, without the rounding of the
host, and the infinities are not values of the model.  The string form of a number is not
modelled, so the comparison of an array or an object with a non-numeric operand is
approximate (see `lessThan`).  The theorems on the numeric rules are stated on numbers.

The field runtime (`./field`, `../validator`) is not part of the file under study.  It enters
the model through three parameters: the `Field` a rule receives, the `Runtime` that maps every
child field to the triple its `validate` hands to the callback, and the order in which the
runtime delivers the callbacks.
-/

namespace JsonSchema

/-! ## Host values -/

/-- A host value. -/
inductive JSVal where
  | undefined
  | null
  | bool (b : Bool)
  | num (n : ℚ)
  | nan
  | str (s : String)
  | arr (addr : Nat) (items : List JSVal)
  | obj (addr : Nat) (props : List (String × JSVal))

/-- Own properties of an object, in enumeration order. -/
abbrev Obj := List (String × JSVal)

/-- An array under construction: `none` is a hole. -/
abbrev JSArray := List (Option JSVal)

/-- Truthiness, as tested by `if (x)`, `!x` and `x || y`. -/
def truthy : JSVal → Bool
  | .undefined => false
  | .null => false
  | .bool b => b
  | .num n => decide (n ≠ 0)
  | .nan => false
  | .str s => decide (s ≠ "")
  | .arr _ _ => true
  | .obj _ _ => true

/-- Strict equality `a === b`. -/
def strictEq : JSVal → JSVal → Bool
  | .undefined, .undefined => true
  | .null, .null => true
  | .bool a, .bool b => decide (a = b)
  | .num a, .num b => decide (a = b)
  | .str a, .str b => decide (a = b)
  | .arr a _, .arr b _ => decide (a = b)
  | .obj a _, .obj b _ => decide (a = b)
  | _, _ => false

/-- An exception thrown by the host. -/
inductive JSError where
  | referenceError (name : String)
  | typeError (callee : String)

/-- Whether `k` names an own property of `o`. -/
def ownsKey {β : Type} (o : List (String × β)) (k : String) : Bool :=
  o.any (fun p => decide (p.1 = k))

/-- The call `o.hasOwnProperty(k)`.  The method is looked up on `o` itself: an own property
named `hasOwnProperty` shadows the inherited method, and as no value of the model is callable
the call then throws a `TypeError`.  Otherwise the inherited method answers whether `k` is an
own property. -/
def hasOwnProperty {β : Type} (o : List (String × β)) (k : String) : Except JSError Bool :=
  if ownsKey o "hasOwnProperty" then .error (.typeError "hasOwnProperty")
  else .ok (ownsKey o k)

/-- Property read `o[k]` of an own property; `undefined` when there is none. -/
def getProp : Obj → String → JSVal
  | [], _ => .undefined
  | (k', v) :: rest, k => if k' = k then v else getProp rest k

/-- The array index a property name stands for, when the name is the canonical decimal form of
an integer below `2^32 - 1`. -/
def arrayIndex (k : String) : Option Nat :=
  match k.toList with
  | [] => none
  | c :: cs =>
    if (c :: cs).all Char.isDigit ∧ (c ≠ '0' ∨ cs = []) then
      if (c :: cs).foldl (fun n d => 10 * n + (d.toNat - 48)) 0 < 4294967295 then
        some ((c :: cs).foldl (fun n d => 10 * n + (d.toNat - 48)) 0)
      else none
    else none

/-- Overwrite the value of the own property `k`. -/
def replaceProp : Obj → String → JSVal → Obj
  | [], _, _ => []
  | (k', v') :: rest, k, v =>
    if k' = k then (k', v) :: rest else (k', v') :: replaceProp rest k v

/-- Add `k` as a new own property.  In the enumeration order the array indices come first, in
ascending order, and the other names follow in the order of their creation. -/
def addProp : Obj → String → JSVal → Obj
  | [], k, v => [(k, v)]
  | (k', v') :: rest, k, v =>
    match arrayIndex k with
    | none => (k', v') :: addProp rest k v
    | some n =>
      match arrayIndex k' with
      | none => (k, v) :: (k', v') :: rest
      | some m => if m < n then (k', v') :: addProp rest k v else (k, v) :: (k', v') :: rest

/-- Property write `o[k] = v`.  An own property is overwritten in place.  Otherwise the name
`__proto__` reaches the setter inherited from `Object.prototype`, which creates no own
property, and any other name becomes a new own property. -/
def setProp (o : Obj) (k : String) (v : JSVal) : Obj :=
  if ownsKey o k then replaceProp o k v
  else if k = "__proto__" then o
  else addProp o k v

/-- Names of the own properties: `Object.keys(o)`, `Object.getOwnPropertyNames(o)`. -/
def keys {β : Type} (o : List (String × β)) : List String :=
  o.map Prod.fst

/-- Indexed write `a[i] = v` on an array: the array grows, with holes, up to index `i`. -/
def arrayAssign (a : JSArray) (i : Nat) (v : JSVal) : JSArray :=
  if i < a.length then a.set i (some v)
  else a ++ List.replicate (i - a.length) none ++ [some v]

/-! ## The field runtime, as seen from a rule -/

/-- What a rule reads from the `field` it is called with. -/
structure Field where
  /-- The resolved rule set `field.rules`. -/
  rules : Obj
  /-- The answer of `field.isObject()`. -/
  isObject : Bool

/-- The arguments of one `field.child(path, value, schema, parent)` call. -/
structure Child where
  path : JSVal
  value : JSVal
  schema : JSVal
  parent : JSVal

/-- The arguments `(err, report, value)` a child hands to the callback of its `validate`. -/
structure Report where
  err : JSVal
  report : JSVal
  value : JSVal

/-- The external child runtime: what each child field reports. -/
abbrev Runtime := Child → Report

/-- One invocation of the `done` continuation: the arguments passed, and the content of the
local `result` variable at that moment. -/
structure DoneCall (ρ : Type) where
  args : List JSVal
  result : ρ

/-- The mutable locals of an `async` continuation (`l`, `result`) and the calls of `done`
made so far.  `l = none` is the host's `null`. -/
structure Join (ρ : Type) where
  l : Option Int
  result : ρ
  doneCalls : List (DoneCall ρ)

/-- The test `!l` on the counter. -/
def counterFalsy : Option Int → Bool
  | none => true
  | some n => decide (n = 0)

/-- The local function `end(err)` of both composition rules. -/
def end_ {ρ : Type} (err : JSVal) (s : Join ρ) : Join ρ :=
  match s.l with
  | none => s
  | some n =>
    let l1 : Option Int := some (n - 1)
    let l2 : Option Int := if truthy err then none else l1
    if counterFalsy l2 then
      { s with l := l2, doneCalls := s.doneCalls ++ [⟨[err], s.result⟩] }
    else
      { s with l := l2 }

/-! ## The `items` rule -/

/-- The child created for index `i`: `field.child(i, item, accept, value)`. -/
def items_child (accept : JSVal) (addr : Nat) (items : List JSVal) (i : Nat) : Child :=
  ⟨.num i, items.getD i .undefined, accept, .arr addr items⟩

/-- The callback given to the `validate` of child `i`, run when that child reports. -/
def items_callback (rt : Runtime) (accept : JSVal) (addr : Nat) (items : List JSVal)
    (s : Join JSArray) (i : Nat) : Join JSArray :=
  let r := rt (items_child accept addr items i)
  if truthy r.err then end_ r.err s
  else end_ .undefined { s with result := arrayAssign s.result i r.value }

/-- The argument of the `end` call made by the callback of child `i`. -/
def items_err (rt : Runtime) (accept : JSVal) (addr : Nat) (items : List JSVal) (i : Nat) :
    JSVal :=
  if truthy (rt (items_child accept addr items i)).err then
    (rt (items_child accept addr items i)).err
  else .undefined

/-- The effect on `result` of the callback of child `i`. -/
def items_write (rt : Runtime) (accept : JSVal) (addr : Nat) (items : List JSVal)
    (r : JSArray) (i : Nat) : JSArray :=
  if truthy (rt (items_child accept addr items i)).err then r
  else arrayAssign r i (rt (items_child accept addr items i)).value

/-- The continuation given to `field.async` by `items`, with the children reporting in the
order `order`. -/
def items_async (rt : Runtime) (accept : JSVal) (addr : Nat) (items : List JSVal)
    (order : List Nat) : Join JSArray :=
  order.foldl (items_callback rt accept addr items) ⟨some items.length, [], []⟩

/-- The children `items` creates, in creation order. -/
def items_children (accept : JSVal) (addr : Nat) (items : List JSVal) : List Child :=
  (List.range items.length).map (items_child accept addr items)

/-- What a composition rule did on the field: its return value, the issues it raised, the
children it created, and, when it called `field.async`, the final state of the continuation. -/
structure Composition (ρ : Type) where
  ret : JSVal
  issues : List Obj
  children : List Child
  async : Option (Join ρ)

/-- The rule `items`: `validate(accept, value, field)`. -/
def items_validate (rt : Runtime) (order : List Nat) (accept value : JSVal) (_field : Field) :
    Composition JSArray :=
  match value with
  | .arr addr items =>
    ⟨.undefined, [], items_children accept addr items,
      some (items_async rt accept addr items order)⟩
  | _ => ⟨.undefined, [], [], none⟩

/-! ## The `properties` rule -/

/-- A schema node: a keyed mapping from rule names to their arguments. -/
structure SchemaNode where
  addr : Nat
  rules : Obj

/-- The schema node as a host value. -/
def SchemaNode.toVal (n : SchemaNode) : JSVal :=
  .obj n.addr n.rules

/-- The argument of `properties`: the declared names, each with its child schema. -/
abbrev PropertiesSchema := List (String × SchemaNode)

/-- The read `accept[property]` of an own property; `none` when the schema does not own the
name. -/
def schemaOf : PropertiesSchema → String → Option SchemaNode
  | [], _ => none
  | (k', n) :: rest, k => if k' = k then some n else schemaOf rest k

/-- The test `accept.hasOwnProperty(property)`, which can throw, together with the read
`accept[property]` made when it answers true. -/
def declared (accept : PropertiesSchema) (property : String) :
    Except JSError (Option SchemaNode) :=
  match hasOwnProperty accept property with
  | .error e => .error e
  | .ok _ => .ok (schemaOf accept property)

/-- The local `properties`: the declared names, then every key of the value that is not yet in
the list. -/
def workingSet (accept : PropertiesSchema) (value : Obj) : List String :=
  (keys value).foldl
    (fun properties property =>
      if property ∈ properties then properties else properties ++ [property])
    (keys accept)

/-- The local `additionalProperty`: `field.rules.additionalProperties || false`. -/
def additionalProperty (field : Field) : JSVal :=
  if truthy (getProp field.rules "additionalProperties") then
    getProp field.rules "additionalProperties"
  else .bool false

/-- The child created for a delegated property:
`field.child(property, value[property], acceptProperty, value)`. -/
def properties_child (addr : Nat) (value : Obj) (property : String) (acceptProperty : JSVal) :
    Child :=
  ⟨.str property, getProp value property, acceptProperty, .obj addr value⟩

/-- The callback given to the `validate` of the child of `property`. -/
def properties_callback (rt : Runtime) (addr : Nat) (value : Obj) (property : String)
    (acceptProperty : JSVal) (s : Join Obj) : Join Obj :=
  let r := rt (properties_child addr value property acceptProperty)
  end_ r.err { s with result := setProp s.result property r.value }

/-- The body of the `forEach` for one property, followed, for a delegated property, by the
callback of its child.  The `hasOwnProperty` calls come in the order of the source, and each
can throw, before any local is written. -/
def properties_visit (rt : Runtime) (field : Field) (accept : PropertiesSchema) (addr : Nat)
    (value : Obj) (s : Join Obj) (property : String) : Except JSError (Join Obj) :=
  match declared accept property with
  | .error e => .error e
  | .ok none =>
    if strictEq (additionalProperty field) (.bool true) then
      .ok (end_ .undefined
        { s with result := setProp s.result property (getProp value property) })
    else if truthy (additionalProperty field) then
      .ok (properties_callback rt addr value property (additionalProperty field) s)
    else
      .ok (end_ .undefined s)
  | .ok (some acceptProperty) =>
    match hasOwnProperty value property with
    | .error e => .error e
    | .ok false =>
      match hasOwnProperty acceptProperty.rules "default" with
      | .error e => .error e
      | .ok true =>
        .ok (end_ .undefined
          { s with
            result := setProp s.result property (getProp acceptProperty.rules "default") })
      | .ok false => .ok (end_ .undefined s)
    | .ok true => .ok (properties_callback rt addr value property acceptProperty.toVal s)

/-- What the body of the `forEach` does with a property as to delegation: it throws, or it
creates a child with the given schema, or it creates none. -/
def properties_delegated (field : Field) (accept : PropertiesSchema) (value : Obj)
    (property : String) : Except JSError (Option JSVal) :=
  match declared accept property with
  | .error e => .error e
  | .ok none =>
    if strictEq (additionalProperty field) (.bool true) then .ok none
    else if truthy (additionalProperty field) then .ok (some (additionalProperty field))
    else .ok none
  | .ok (some acceptProperty) =>
    match hasOwnProperty value property with
    | .error e => .error e
    | .ok false =>
      match hasOwnProperty acceptProperty.rules "default" with
      | .error e => .error e
      | .ok _ => .ok none
    | .ok true => .ok (some acceptProperty.toVal)

/-- Whether the body of the `forEach` runs to its end for a property, without throwing. -/
def properties_reaches (field : Field) (accept : PropertiesSchema) (value : Obj)
    (property : String) : Bool :=
  match properties_delegated field accept value property with
  | .error _ => false
  | .ok _ => true

/-- The properties the `forEach` visits: the working set up to the first property whose visit
throws, which ends the loop. -/
def properties_visited (field : Field) (accept : PropertiesSchema) (value : Obj) :
    List String :=
  (workingSet accept value).takeWhile (properties_reaches field accept value)

/-- The children created by the `forEach` over the given names, up to the first throw. -/
def properties_created (field : Field) (accept : PropertiesSchema) (addr : Nat) (value : Obj) :
    List String → List Child
  | [] => []
  | property :: rest =>
    match properties_delegated field accept value property with
    | .error _ => []
    | .ok none => properties_created field accept addr value rest
    | .ok (some acceptProperty) =>
      properties_child addr value property acceptProperty ::
        properties_created field accept addr value rest

/-- The exception that ends the `forEach`, when one is thrown: that of the first property whose
visit throws. -/
def properties_thrown (field : Field) (accept : PropertiesSchema) (value : Obj) :
    Option JSError :=
  match (workingSet accept value).dropWhile (properties_reaches field accept value) with
  | [] => none
  | property :: _ =>
    match properties_delegated field accept value property with
    | .error e => some e
    | .ok _ => none

/-- The children `properties` creates, in creation order. -/
def properties_children (field : Field) (accept : PropertiesSchema) (addr : Nat) (value : Obj) :
    List Child :=
  properties_created field accept addr value (workingSet accept value)

/-- One `end` call of the continuation: the visit of a property.  A visit that throws makes no
`end` call and leaves the locals as they are. -/
def properties_step (rt : Runtime) (field : Field) (accept : PropertiesSchema) (addr : Nat)
    (value : Obj) (s : Join Obj) (property : String) : Join Obj :=
  match properties_visit rt field accept addr value s property with
  | .error _ => s
  | .ok s' => s'

/-- The continuation given to `field.async` by `properties`.  `order` lists the visited
properties (`properties_visited`) in the order in which their `end` calls happen: a property
that is not delegated calls `end` inside the `forEach`, a delegated one when its child
reports, be it after the loop has ended or has thrown. -/
def properties_async (rt : Runtime) (field : Field) (accept : PropertiesSchema) (addr : Nat)
    (value : Obj) (order : List String) : Join Obj :=
  order.foldl (properties_step rt field accept addr value)
    ⟨some (workingSet accept value).length, [], []⟩

/-- The rule `properties`: `validate(accept, value, field)`, for a keyed `value`. -/
def properties_validate (rt : Runtime) (order : List String) (accept : PropertiesSchema)
    (addr : Nat) (value : Obj) (field : Field) : Composition Obj :=
  if !field.isObject then ⟨.undefined, [], [], none⟩
  else
    ⟨.undefined, [], properties_children field accept addr value,
      some (properties_async rt field accept addr value order)⟩

/-- The schema a property is delegated with when its visit does not throw. -/
def properties_schema (field : Field) (accept : PropertiesSchema) (value : Obj)
    (property : String) : Option JSVal :=
  match schemaOf accept property with
  | none =>
    if strictEq (additionalProperty field) (.bool true) then none
    else if truthy (additionalProperty field) then some (additionalProperty field)
    else none
  | some acceptProperty =>
    if !ownsKey value property then none else some acceptProperty.toVal

/-- The argument of the `end` call made for a property whose visit does not throw: the error
of its child when it is delegated, nothing otherwise. -/
def properties_err (rt : Runtime) (field : Field) (accept : PropertiesSchema) (addr : Nat)
    (value : Obj) (property : String) : JSVal :=
  match properties_schema field accept value property with
  | none => .undefined
  | some acceptProperty => (rt (properties_child addr value property acceptProperty)).err

/-- The value assigned to `result[property]` for a property whose visit does not throw, if
one is assigned. -/
def properties_written (rt : Runtime) (field : Field) (accept : PropertiesSchema) (addr : Nat)
    (value : Obj) (property : String) : Option JSVal :=
  match properties_schema field accept value property with
  | some acceptProperty =>
    some (rt (properties_child addr value property acceptProperty)).value
  | none =>
    match schemaOf accept property with
    | none =>
      if strictEq (additionalProperty field) (.bool true) then some (getProp value property)
      else none
    | some acceptProperty =>
      if ownsKey acceptProperty.rules "default" then
        some (getProp acceptProperty.rules "default")
      else none

/-- The effect on `result` of a property whose visit does not throw. -/
def properties_write (rt : Runtime) (field : Field) (accept : PropertiesSchema) (addr : Nat)
    (value : Obj) (r : Obj) (property : String) : Obj :=
  match properties_written rt field accept addr value property with
  | some v => setProp r property v
  | none => r

/-! ## Synchronous rules -/

/-- What a synchronous rule did: its return value and the issues it raised with
`field.issue`, in call order. -/
structure Outcome where
  ret : JSVal
  issues : List Obj

/-- The `forEach` of `required` over the names still to check, `issues` being the issues
raised so far: one `field.issue` per name the value does not own.  The call
`value.hasOwnProperty(property)` can throw, which ends the loop. -/
def required_loop (value : Obj) : List String → List Obj → Except JSError (List Obj)
  | [], issues => .ok issues
  | property :: rest, issues =>
    match hasOwnProperty value property with
    | .error e => .error e
    | .ok true => required_loop value rest issues
    | .ok false =>
      required_loop value rest
        (issues ++ [[("path", .str property), ("rule", .str "required")]])

/-- The rule `required`. -/
def required_validate (accept : List String) (value : Obj) : Except JSError Outcome :=
  match required_loop value accept [] with
  | .error e => .error e
  | .ok issues => .ok ⟨.undefined, issues⟩

/-- White space of a numeric string: the `WhiteSpace` and `LineTerminator` characters of the
host. -/
def isStrWhiteSpace (c : Char) : Bool :=
  decide (c.toNat ∈ [9, 10, 11, 12, 13, 32, 160, 5760, 8232, 8233, 8239, 8287, 12288, 65279])
    || (decide (8192 ≤ c.toNat) && decide (c.toNat ≤ 8202))

/-- Strip the white space at both ends. -/
def trimSpace (cs : List Char) : List Char :=
  ((cs.dropWhile isStrWhiteSpace).reverse.dropWhile isStrWhiteSpace).reverse

/-- Value of a digit in the given base, for the digits `0-9`, `a-z` and `A-Z`. -/
def digitIn (base : Nat) (c : Char) : Option Nat :=
  let d : Nat :=
    if 48 ≤ c.toNat ∧ c.toNat ≤ 57 then c.toNat - 48
    else if 97 ≤ c.toNat ∧ c.toNat ≤ 122 then c.toNat - 87
    else if 65 ≤ c.toNat ∧ c.toNat ≤ 90 then c.toNat - 55
    else base
  if d < base then some d else none

/-- Value of a list of digits in the given base, read after digits worth `n`; `none` when a
character is not a digit of that base. -/
def digitsFrom (base : Nat) : List Char → Nat → Option Nat
  | [], n => some n
  | c :: cs, n =>
    match digitIn base c with
    | none => none
    | some d => digitsFrom base cs (base * n + d)

/-- Value of a non-empty list of digits in the given base. -/
def digitsValue (base : Nat) (cs : List Char) : Option Nat :=
  if cs = [] then none else digitsFrom base cs 0

/-- The exponent part of a decimal literal: nothing, or `e` or `E`, an optional sign and
decimal digits. -/
def exponentPart : List Char → Option Int
  | [] => some 0
  | c :: cs =>
    if c = 'e' ∨ c = 'E' then
      match cs with
      | '-' :: ds => (digitsValue 10 ds).map (fun n => - (n : Int))
      | '+' :: ds => (digitsValue 10 ds).map (fun n => (n : Int))
      | ds => (digitsValue 10 ds).map (fun n => (n : Int))
    else none

/-- The number `m * 10 ^ e`. -/
def scale10 (m : Nat) (e : Int) : ℚ :=
  if 0 ≤ e then (m : ℚ) * ((10 ^ e.toNat : Nat) : ℚ)
  else (m : ℚ) / ((10 ^ (-e).toNat : Nat) : ℚ)

/-- An unsigned decimal literal: digits with an optional fraction, or a fraction alone, then an
optional exponent part. -/
def unsignedDecimal (cs : List Char) : Option ℚ :=
  let whole := cs.takeWhile Char.isDigit
  let afterWhole := cs.dropWhile Char.isDigit
  let fraction :=
    match afterWhole with
    | '.' :: rest => rest.takeWhile Char.isDigit
    | _ => []
  let afterFraction :=
    match afterWhole with
    | '.' :: rest => rest.dropWhile Char.isDigit
    | _ => afterWhole
  if whole = [] ∧ fraction = [] then none
  else
    match digitsFrom 10 (whole ++ fraction) 0, exponentPart afterFraction with
    | some m, some e => some (scale10 m (e - fraction.length))
    | _, _ => none

/-- A numeric literal without white space around it: a binary, octal or hexadecimal integer,
or a signed decimal literal. -/
def numericLiteral : List Char → Option ℚ
  | '0' :: 'b' :: ds => (digitsValue 2 ds).map (fun n => (n : ℚ))
  | '0' :: 'B' :: ds => (digitsValue 2 ds).map (fun n => (n : ℚ))
  | '0' :: 'o' :: ds => (digitsValue 8 ds).map (fun n => (n : ℚ))
  | '0' :: 'O' :: ds => (digitsValue 8 ds).map (fun n => (n : ℚ))
  | '0' :: 'x' :: ds => (digitsValue 16 ds).map (fun n => (n : ℚ))
  | '0' :: 'X' :: ds => (digitsValue 16 ds).map (fun n => (n : ℚ))
  | '-' :: cs => (unsignedDecimal cs).map (fun q => - q)
  | '+' :: cs => unsignedDecimal cs
  | cs => unsignedDecimal cs

/-- String to number; `none` is `NaN`.  A blank string is 0 and a numeric literal has its exact
value, which the host rounds to the nearest number it represents.  The literal `Infinity`,
signed or not, names no rational and is taken as `NaN`. -/
def stringToNumber (s : String) : Option ℚ :=
  match trimSpace s.toList with
  | [] => some 0
  | cs => numericLiteral cs

/-- Numeric conversion of the string form of an array element.  In the string form of an
array, `undefined` and `null` are empty, a number and a string stand for themselves, and a
nested array is joined in turn; a boolean, `NaN` and a plain object read as no number. -/
def elementNumber : JSVal → Option ℚ
  | .undefined => some 0
  | .null => some 0
  | .bool _ => none
  | .num n => some n
  | .nan => none
  | .str s => stringToNumber s
  | .arr _ [] => some 0
  | .arr _ [x] => elementNumber x
  | .arr _ (_ :: _ :: _) => none
  | .obj _ _ => none

/-- Numeric conversion of an operand; `none` is `NaN`.  An array converts through its string
form, the join of its elements with commas: the empty array is 0, an array of one element is
what the string form of that element reads as, and a longer one is `NaN`.  A plain object is
`NaN`; an object that owns a property named `toString` is outside the model (the host throws
on it). -/
def toNumber : JSVal → Option ℚ
  | .undefined => none
  | .null => some 0
  | .bool b => some (if b then 1 else 0)
  | .num n => some n
  | .nan => none
  | .str s => stringToNumber s
  | .arr _ [] => some 0
  | .arr _ [x] => elementNumber x
  | .arr _ (_ :: _ :: _) => none
  | .obj _ _ => none

/-- The UTF-16 code units of a string: one unit for a character below `0x10000`, a surrogate
pair for any other. -/
def codeUnits : List Char → List Nat
  | [] => []
  | c :: cs =>
    if c.toNat < 65536 then c.toNat :: codeUnits cs
    else
      (55296 + (c.toNat - 65536) / 1024) :: (56320 + (c.toNat - 65536) % 1024) :: codeUnits cs

/-- The order of two strings: the first differing code unit decides, and a proper prefix comes
first. -/
def unitsLess : List Nat → List Nat → Bool
  | _, [] => false
  | [], _ :: _ => true
  | x :: xs, y :: ys => if x < y then true else if y < x then false else unitsLess xs ys

/-- The comparison `a < b`; `none` is the host's undefined outcome, when an operand is `NaN`.
Two strings compare by their UTF-16 code units, any other pair as numbers.  The host also
compares as strings an array or an object with a string, an array or an object, through
their string forms; these are not modelled and such a pair is compared as numbers here. -/
def lessThan : JSVal → JSVal → Option Bool
  | .str s, .str t => some (unitsLess (codeUnits s.toList) (codeUnits t.toList))
  | a, b =>
    match toNumber a, toNumber b with
    | some x, some y => some (decide (x < y))
    | _, _ => none

/-- The operator `a > b`. -/
def jsGt (a b : JSVal) : Bool :=
  lessThan b a == some true

/-- The operator `a >= b`. -/
def jsGe (a b : JSVal) : Bool :=
  lessThan a b == some false

/-- The operator `a < b`. -/
def jsLt (a b : JSVal) : Bool :=
  lessThan a b == some true

/-- The operator `a <= b`. -/
def jsLe (a b : JSVal) : Bool :=
  lessThan b a == some false

/-- The rule `minimum`. -/
def minimum_validate (accept value : JSVal) (field : Field) : Bool :=
  if truthy (getProp field.rules "exclusiveMinimum") then jsGt value accept
  else jsGe value accept

/-- The rule `maximum`. -/
def maximum_validate (accept value : JSVal) (field : Field) : Bool :=
  if truthy (getProp field.rules "exclusiveMaximum") then jsLt value accept
  else jsLe value accept

/-- The call `xs.indexOf(item)`: the first index holding a strictly equal element, else -1. -/
def indexOf : List JSVal → JSVal → Int
  | [], _ => -1
  | x :: xs, item =>
    if strictEq x item then 0
    else if indexOf xs item > -1 then indexOf xs item + 1 else -1

/-- The issue `uniqueItems` raises at index `i`. -/
def uniqueItems_issue (i : Nat) : Obj :=
  [("path", .num i), ("rule", .str "uniqueItems"), ("accept", .bool true)]

/-- The `while` loop of `uniqueItems`, from index `i` on, over the items not yet scanned. -/
def uniqueItems_loop : List JSVal → Nat → List JSVal → List Obj → List Obj
  | [], _, _, issues => issues
  | item :: rest, i, unique, issues =>
    if indexOf unique item > -1 then
      uniqueItems_loop rest (i + 1) unique (issues ++ [uniqueItems_issue i])
    else
      uniqueItems_loop rest (i + 1) (unique ++ [item]) issues

/-- Specification side of `uniqueItems`: the indices, from `i` on, of the items of `rest` that
are strictly equal to an item before them, `seen` being the items before `rest`. -/
def laterDuplicates : List JSVal → List JSVal → Nat → List Nat
  | _, [], _ => []
  | seen, item :: rest, i =>
    (if seen.any (fun y => strictEq y item) then [i] else [])
      ++ laterDuplicates (seen ++ [item]) rest (i + 1)

/-- The rule `uniqueItems`. -/
def uniqueItems_validate (accept value : JSVal) : Outcome :=
  if !truthy accept then ⟨.undefined, []⟩
  else
    match value with
    | .arr _ items =>
      ⟨.bool (jsGe (.num items.length) accept), uniqueItems_loop items 0 [] []⟩
    | _ => ⟨.undefined, []⟩

/-- The test `Array.isArray(v)`. -/
def isArray : JSVal → Bool
  | .arr _ _ => true
  | _ => false

/-- The operator `typeof v`. -/
def jsTypeof : JSVal → String
  | .undefined => "undefined"
  | .null => "object"
  | .bool _ => "boolean"
  | .num _ => "number"
  | .nan => "number"
  | .str _ => "string"
  | .arr _ _ => "object"
  | .obj _ _ => "object"

/-- The rule `type`.  The `switch` compares `accept` strictly with each label.  The case
`"null"` first evaluates the expression statement `规则` and the case `"integer"` evaluates
`number`; neither name is declared in the file or provided by the host, so reading it throws
a `ReferenceError` before anything is returned. -/
def type_validate (accept value : JSVal) : Except JSError Bool :=
  if strictEq accept (.str "array") then .ok (isArray value)
  else if strictEq accept (.str "object") then
    .ok (decide (jsTypeof value = "object") && !strictEq value .null)
  else if strictEq accept (.str "null") then .error (.referenceError "规则")
  else if strictEq accept (.str "integer") then .error (.referenceError "number")
  else .ok (strictEq (.str (jsTypeof value)) accept)

/-- The rule `default`, a filter. -/
def default_filter (accept value : JSVal) : JSVal :=
  if jsTypeof value = "undefined" then accept else value

/-- Truncation of a rational toward zero. -/
def truncate (q : ℚ) : Int :=
  Int.tdiv q.num q.den

/-- The operator `a % b`: both operands are converted to numbers, the result has the sign of
the dividend, and it is `NaN` when an operand is `NaN` or the divisor is zero. -/
def jsRem (a b : JSVal) : JSVal :=
  match toNumber a, toNumber b with
  | some x, some y => if y = 0 then .nan else .num (x - y * (truncate (x / y) : ℚ))
  | _, _ => .nan

/-- The rule `divisibleBy`. -/
def divisibleBy_validate (accept value : JSVal) : Bool :=
  strictEq (jsRem value accept) (.num 0)

/-- The rule `minItems`. -/
def minItems_validate (accept value : JSVal) : Bool :=
  match value with
  | .arr _ items => jsGe (.num items.length) accept
  | _ => false

/-- The rule `maxItems`. -/
def maxItems_validate (accept value : JSVal) : Bool :=
  match value with
  | .arr _ items => jsLe (.num items.length) accept
  | _ => false

end JsonSchema

namespace JsonSchema

/-! ## The join counter -/

/-- A call `end(err)` with a falsy `err` counts one child down and calls `done(err)` when the
counter reaches zero. -/
theorem end_falsy {ρ : Type} (err : JSVal) (herr : truthy err = false) (s : Join ρ) (n : Int)
    (hl : s.l = some n) :
    end_ err s =
      if n = 1 then
        { s with l := some 0, doneCalls := s.doneCalls ++ [⟨[err], s.result⟩] }
      else { s with l := some (n - 1) } := by
  unfold end_
  rw [hl]
  by_cases h1 : n = 1
  · subst h1
    simp [herr, counterFalsy]
  · have h0 : n - 1 ≠ 0 := by omega
    simp [herr, counterFalsy, h1, h0]

/-- A call `end(err)` with a truthy `err` on a live counter sets it to `null` and calls
`done(err)`. -/
theorem end_truthy {ρ : Type} (err : JSVal) (herr : truthy err = true) (s : Join ρ) (n : Int)
    (hl : s.l = some n) :
    end_ err s = { s with l := none, doneCalls := s.doneCalls ++ [⟨[err], s.result⟩] } := by
  unfold end_
  rw [hl]
  simp [herr, counterFalsy]

/-- A call of `end` after the counter was set to `null` does nothing. -/
theorem end_dead {ρ : Type} (err : JSVal) (s : Join ρ) (hl : s.l = none) : end_ err s = s := by
  unfold end_
  rw [hl]

/-- A run of `end` calls without error, each preceded by a write to `result`: the counter
goes down by the number of calls, `result` collects the writes, and `done` is called exactly
when the counter reaches zero, with the falsy error of that call and the final `result`. -/
theorem join_fold {ρ α : Type} (step : Join ρ → α → Join ρ) (w : ρ → α → ρ) (e : α → JSVal) :
    ∀ (order : List α) (s : Join ρ) (n : Nat),
      (∀ a ∈ order, truthy (e a) = false) →
      (∀ a ∈ order, ∀ t : Join ρ, step t a = end_ (e a) { t with result := w t.result a }) →
      s.l = some (n : Int) → order.length ≤ n →
      (order.foldl step s).l = some ((n : Int) - order.length) ∧
      (order.foldl step s).result = order.foldl w s.result ∧
      (order.length < n → (order.foldl step s).doneCalls = s.doneCalls) ∧
      (order.length = n → 0 < n → ∃ a ∈ order,
        (order.foldl step s).doneCalls = s.doneCalls ++ [⟨[e a], order.foldl w s.result⟩]) := by
  intro order
  induction order with
  | nil =>
    intro s n _ _ hl _
    refine ⟨by simpa using hl, rfl, fun _ => rfl, fun h0 hn => ?_⟩
    simp at h0
    omega
  | cons a rest ih =>
    intro s n hok hstep hl hlen
    simp only [List.length_cons] at hlen
    have hs1 : step s a = end_ (e a) { s with result := w s.result a } :=
      hstep a (List.mem_cons_self a rest) s
    have hea : truthy (e a) = false := hok a (List.mem_cons_self a rest)
    have hend := end_falsy (e a) hea { s with result := w s.result a } (n : Int) hl
    have hl1 : (step s a).l = some ((n - 1 : Nat) : Int) := by
      rw [hs1, hend]
      by_cases h1 : (n : Int) = 1
      · have : n = 1 := by omega
        subst this
        simp
      · simp only [h1, if_false]
        have : ((n - 1 : Nat) : Int) = (n : Int) - 1 := by omega
        rw [this]
    have hres1 : (step s a).result = w s.result a := by
      rw [hs1, hend]
      by_cases h1 : (n : Int) = 1 <;> simp [h1]
    have ih1 := ih (step s a) (n - 1)
      (fun b hb => hok b (List.mem_cons_of_mem a hb))
      (fun b hb => hstep b (List.mem_cons_of_mem a hb)) hl1 (by omega)
    obtain ⟨ihl, ihr, ihlt, iheq⟩ := ih1
    simp only [List.foldl_cons, List.length_cons]
    refine ⟨?_, ?_, ?_, ?_⟩
    · rw [ihl]
      congr 1
      push_cast
      omega
    · rw [ihr, hres1]
    · intro hlt
      rw [ihlt (by omega), hs1, hend]
      have h1 : (n : Int) ≠ 1 := by omega
      simp [h1]
    · intro heq _
      by_cases h1 : n = 1
      · have hrest : rest = [] := List.eq_nil_of_length_eq_zero (by omega)
        subst hrest
        subst h1
        refine ⟨a, List.mem_cons_self a [], ?_⟩
        simp only [List.foldl_nil]
        rw [hs1, hend]
        simp
      · obtain ⟨b, hb, hdone⟩ := iheq (by omega) (by omega)
        refine ⟨b, List.mem_cons_of_mem a hb, ?_⟩
        rw [hdone, hres1, hs1, hend]
        have h1' : (n : Int) ≠ 1 := by omega
        simp [h1']

/-! ## Indexed writes -/

theorem arrayAssign_length (a : JSArray) (i : Nat) (v : JSVal) :
    (arrayAssign a i v).length = max a.length (i + 1) := by
  unfold arrayAssign
  split
  · simp only [List.length_set]
    omega
  · simp only [List.length_append, List.length_replicate, List.length_singleton]
    omega

theorem arrayAssign_self (a : JSArray) (i : Nat) (v : JSVal) :
    (arrayAssign a i v)[i]? = some (some v) := by
  unfold arrayAssign
  split
  · rename_i h
    simp [List.getElem?_set, h]
  · rename_i h
    have hle : a.length ≤ i := Nat.le_of_not_lt h
    rw [List.getElem?_append_right
      (by simp only [List.length_append, List.length_replicate]; omega)]
    simp only [List.length_append, List.length_replicate]
    have h0 : i - (a.length + (i - a.length)) = 0 := by omega
    rw [h0]
    rfl

theorem arrayAssign_other (a : JSArray) (i j : Nat) (v : JSVal) (hne : j ≠ i)
    (hj : j < a.length) : (arrayAssign a i v)[j]? = a[j]? := by
  unfold arrayAssign
  split
  · rw [List.getElem?_set_ne (Ne.symm hne)]
  · rw [List.append_assoc, List.getElem?_append_left hj]

/-- Writing the reported values of the indices in `order`, all below `n`, into an array no
longer than `n`: the array stays no longer than `n` and holds, at every index written, now or
before, the value of that index. -/
theorem arrayAssign_fold (val : Nat → JSVal) (n : Nat) :
    ∀ (order : List Nat) (r : JSArray), (∀ i ∈ order, i < n) → r.length ≤ n →
      (order.foldl (fun r i => arrayAssign r i (val i)) r).length ≤ n ∧
      ∀ j, (j ∈ order ∨ r[j]? = some (some (val j))) →
        (order.foldl (fun r i => arrayAssign r i (val i)) r)[j]? = some (some (val j)) := by
  intro order
  induction order with
  | nil =>
    intro r _ hr
    refine ⟨hr, fun j hj => ?_⟩
    rcases hj with hj | hj
    · cases hj
    · exact hj
  | cons i rest ih =>
    intro r hlt hr
    have hi : i < n := hlt i (List.mem_cons_self i rest)
    have hlen : (arrayAssign r i (val i)).length ≤ n := by
      rw [arrayAssign_length]
      omega
    obtain ⟨h1, h2⟩ := ih (arrayAssign r i (val i))
      (fun k hk => hlt k (List.mem_cons_of_mem i hk)) hlen
    simp only [List.foldl_cons]
    refine ⟨h1, fun j hj => h2 j ?_⟩
    by_cases hji : j = i
    · subst hji
      exact Or.inr (arrayAssign_self r j (val j))
    · rcases hj with hj | hj
      · rcases List.mem_cons.mp hj with hj | hj
        · exact absurd hj hji
        · exact Or.inl hj
      · right
        have hjlt : j < r.length := by
          by_contra hge
          rw [List.getElem?_eq_none (by omega)] at hj
          cases hj
        rw [arrayAssign_other r i j (val i) hji hjlt]
        exact hj

/-- Without a child error, the callback of `items` is a write at the index of the child
followed by `end()`. -/
theorem items_callback_ok (rt : Runtime) (accept : JSVal) (addr : Nat) (items : List JSVal)
    (i : Nat) (hok : truthy (rt (items_child accept addr items i)).err = false)
    (t : Join JSArray) :
    items_callback rt accept addr items t i =
      end_ .undefined
        { t with result := arrayAssign t.result i (rt (items_child accept addr items i)).value } := by
  simp [items_callback, hok]

/-! ## Keyed writes and the working set -/

/-- The call `end` never touches the local `result`. -/
theorem end_result {ρ : Type} (err : JSVal) (s : Join ρ) : (end_ err s).result = s.result := by
  unfold end_
  cases s.l with
  | none => rfl
  | some n =>
    simp only
    repeat' split
    all_goals rfl

theorem ownsKey_iff {β : Type} (o : List (String × β)) (k : String) :
    ownsKey o k = true ↔ k ∈ keys o := by
  unfold ownsKey keys
  simp only [List.any_eq_true, decide_eq_true_eq, List.mem_map]

theorem ownsKey_false_iff {β : Type} (o : List (String × β)) (k : String) :
    ownsKey o k = false ↔ k ∉ keys o := by
  rw [← ownsKey_iff]
  cases ownsKey o k <;> simp

/-- The call `hasOwnProperty` answers the own-property test on an object that does not own
the name `hasOwnProperty`. -/
theorem hasOwnProperty_plain {β : Type} (o : List (String × β)) (k : String)
    (h : ownsKey o "hasOwnProperty" = false) : hasOwnProperty o k = .ok (ownsKey o k) := by
  simp [hasOwnProperty, h]

/-- The call `hasOwnProperty` throws on an object that owns the name `hasOwnProperty`. -/
theorem hasOwnProperty_shadowed {β : Type} (o : List (String × β)) (k : String)
    (h : ownsKey o "hasOwnProperty" = true) :
    hasOwnProperty o k = .error (.typeError "hasOwnProperty") := by
  simp [hasOwnProperty, h]

theorem keys_replaceProp (o : Obj) (k : String) (v : JSVal) :
    keys (replaceProp o k v) = keys o := by
  induction o with
  | nil => rfl
  | cons hd tl ih =>
    obtain ⟨k', v'⟩ := hd
    unfold replaceProp
    by_cases h : k' = k
    · simp [h, keys]
    · simp only [h, if_false]
      simp only [keys, List.map_cons] at ih ⊢
      rw [ih]

theorem getProp_replaceProp (o : Obj) (k q : String) (v : JSVal) (hown : k ∈ keys o) :
    getProp (replaceProp o k v) q = if k = q then v else getProp o q := by
  induction o with
  | nil => simp [keys] at hown
  | cons hd tl ih =>
    obtain ⟨k', v'⟩ := hd
    unfold replaceProp
    by_cases hk : k' = k
    · subst hk
      by_cases h : k' = q <;> simp [getProp, h]
    · have hown' : k ∈ keys tl := by
        simp only [keys, List.map_cons, List.mem_cons] at hown
        rcases hown with h | h
        · exact absurd h.symm hk
        · exact h
      simp only [hk, if_false]
      by_cases hq : k' = q
      · subst hq
        have hne : ¬ k = k' := fun h => hk h.symm
        simp [getProp, hne]
      · simp only [getProp, hq, if_false]
        exact ih hown'

theorem mem_keys_addProp (o : Obj) (k : String) (v : JSVal) (q : String) :
    q ∈ keys (addProp o k v) ↔ q = k ∨ q ∈ keys o := by
  induction o with
  | nil => simp [addProp, keys]
  | cons hd tl ih =>
    obtain ⟨k', v'⟩ := hd
    simp only [keys, List.map_cons, List.mem_cons] at ih ⊢
    unfold addProp
    cases arrayIndex k with
    | none =>
      simp only [List.map_cons, List.mem_cons]
      rw [ih]
      tauto
    | some n =>
      cases arrayIndex k' with
      | none => simp only [List.map_cons, List.mem_cons]
      | some m =>
        by_cases hmn : m < n
        · simp only [hmn, if_true, List.map_cons, List.mem_cons]
          rw [ih]
          tauto
        · simp only [hmn, if_false, List.map_cons, List.mem_cons]

theorem getProp_addProp (o : Obj) (k q : String) (v : JSVal) (hnew : k ∉ keys o) :
    getProp (addProp o k v) q = if k = q then v else getProp o q := by
  induction o with
  | nil => by_cases h : k = q <;> simp [addProp, getProp, h]
  | cons hd tl ih =>
    obtain ⟨k', v'⟩ := hd
    simp only [keys, List.map_cons, List.mem_cons, not_or] at hnew
    have hne : ¬ k' = k := fun h => hnew.1 h.symm
    have hstep : getProp ((k', v') :: addProp tl k v) q =
        if k = q then v else getProp ((k', v') :: tl) q := by
      by_cases hq : k' = q
      · subst hq
        have : ¬ k = k' := hnew.1
        simp [getProp, this]
      · simp only [getProp, hq, if_false]
        exact ih hnew.2
    have hfront : getProp ((k, v) :: (k', v') :: tl) q =
        if k = q then v else getProp ((k', v') :: tl) q := by
      by_cases hq : k = q <;> simp [getProp, hq]
    unfold addProp
    cases arrayIndex k with
    | none => exact hstep
    | some n =>
      cases arrayIndex k' with
      | none => exact hfront
      | some m =>
        by_cases hmn : m < n
        · simp only [hmn, if_true]
          exact hstep
        · simp only [hmn, if_false]
          exact hfront

/-- The keys after a write: those before, and the name written unless it is `__proto__`. -/
theorem mem_keys_setProp (o : Obj) (k : String) (v : JSVal) (q : String) :
    q ∈ keys (setProp o k v) ↔ q ∈ keys o ∨ (q = k ∧ k ≠ "__proto__") := by
  unfold setProp
  by_cases hown : ownsKey o k = true
  · simp only [hown, if_true, keys_replaceProp]
    constructor
    · exact fun h => Or.inl h
    · rintro (h | ⟨h, _⟩)
      · exact h
      · exact h ▸ (ownsKey_iff o k).mp hown
  · simp only [hown, if_false, Bool.false_eq_true]
    by_cases hp : k = "__proto__"
    · simp [hp]
    · simp only [hp, if_false, mem_keys_addProp]
      tauto

/-- The entry of a name other than `__proto__` after a write. -/
theorem getProp_setProp (o : Obj) (p q : String) (v : JSVal) (hq : q ≠ "__proto__") :
    getProp (setProp o p v) q = if p = q then v else getProp o q := by
  unfold setProp
  by_cases hown : ownsKey o p = true
  · simp only [hown, if_true]
    exact getProp_replaceProp o p q v ((ownsKey_iff o p).mp hown)
  · simp only [hown, if_false, Bool.false_eq_true]
    by_cases hp : p = "__proto__"
    · have hne : ¬ p = q := fun h => hq (h ▸ hp)
      simp only [hp, if_true]
      have hne2 : ¬ "__proto__" = q := fun h => hq h.symm
      simp only [hne2, if_false]
    · simp only [hp, if_false]
      exact getProp_addProp o p q v (fun h => hown ((ownsKey_iff o p).mpr h))

theorem getProp_of_not_mem (o : Obj) (k : String) (h : k ∉ keys o) :
    getProp o k = .undefined := by
  induction o with
  | nil => rfl
  | cons hd tl ih =>
    obtain ⟨k', v⟩ := hd
    simp only [keys, List.map_cons, List.mem_cons, not_or] at h
    unfold getProp
    have hne : ¬ k' = k := fun e => h.1 e.symm
    simp only [hne, if_false]
    exact ih h.2

theorem schemaOf_mem_keys (accept : PropertiesSchema) (p : String) (node : SchemaNode)
    (h : schemaOf accept p = some node) : p ∈ keys accept := by
  induction accept with
  | nil => simp [schemaOf] at h
  | cons hd tl ih =>
    obtain ⟨k', n⟩ := hd
    unfold schemaOf at h
    by_cases hk : k' = p
    · subst hk
      simp [keys]
    · simp only [hk, if_false] at h
      simp only [keys, List.map_cons, List.mem_cons]
      exact Or.inr (ih h)

theorem schemaOf_none_iff (accept : PropertiesSchema) (k : String) :
    schemaOf accept k = none ↔ k ∉ keys accept := by
  induction accept with
  | nil => simp [schemaOf, keys]
  | cons hd tl ih =>
    obtain ⟨k', n⟩ := hd
    unfold schemaOf
    by_cases hk : k' = k
    · subst hk
      simp [keys]
    · simp only [hk, if_false, keys, List.map_cons, List.mem_cons, not_or]
      rw [ih]
      exact ⟨fun h => ⟨fun e => hk e.symm, h⟩, fun h => h.2⟩

theorem mem_workingSet_fold (ks : List String) :
    ∀ (init : List String) (p : String),
      p ∈ ks.foldl
        (fun properties property =>
          if property ∈ properties then properties else properties ++ [property]) init
        ↔ p ∈ init ∨ p ∈ ks := by
  induction ks with
  | nil => intro init p; simp
  | cons k rest ih =>
    intro init p
    simp only [List.foldl_cons, List.mem_cons]
    rw [ih]
    by_cases hk : k ∈ init
    · simp only [hk, if_true]
      constructor
      · rintro (h | h)
        · exact Or.inl h
        · exact Or.inr (Or.inr h)
      · rintro (h | h | h)
        · exact Or.inl h
        · exact Or.inl (h ▸ hk)
        · exact Or.inr h
    · simp only [hk, if_false, List.mem_append, List.mem_singleton]
      tauto

/-- The working set holds the declared names and the keys of the value, and nothing else. -/
theorem mem_workingSet (accept : PropertiesSchema) (value : Obj) (p : String) :
    p ∈ workingSet accept value ↔ p ∈ keys accept ∨ p ∈ keys value :=
  mem_workingSet_fold (keys value) (keys accept) p

/-- With a falsy `additionalProperties`, the local `additionalProperty` is `false`. -/
theorem additionalProperty_falsy (field : Field)
    (h : truthy (getProp field.rules "additionalProperties") = false) :
    additionalProperty field = .bool false := by
  simp [additionalProperty, h]

/-! ## The composition rules as counted writes -/

/-- The callback of `items` is a write followed by one `end` call. -/
theorem items_callback_eq (rt : Runtime) (accept : JSVal) (addr : Nat) (items : List JSVal)
    (i : Nat) (t : Join JSArray) :
    items_callback rt accept addr items t i =
      end_ (items_err rt accept addr items i)
        { t with result := items_write rt accept addr items t.result i } := by
  unfold items_callback items_err items_write
  by_cases h : truthy (rt (items_child accept addr items i)).err = true
  · simp [h]
  · simp [h]

/-- The visit of a property runs to its end exactly when no `hasOwnProperty` call it makes
hits an own key named `hasOwnProperty`: on the schema, on the value when the property is
declared, and on the child schema when the property is declared and absent. -/
theorem properties_reaches_iff (field : Field) (accept : PropertiesSchema) (value : Obj)
    (p : String) :
    properties_reaches field accept value p = true ↔
      ownsKey accept "hasOwnProperty" = false ∧
      ∀ node, schemaOf accept p = some node →
        ownsKey value "hasOwnProperty" = false ∧
        (ownsKey value p = false → ownsKey node.rules "hasOwnProperty" = false) := by
  unfold properties_reaches properties_delegated declared hasOwnProperty
  cases ha : ownsKey accept "hasOwnProperty"
  · cases hs : schemaOf accept p with
    | none =>
      by_cases h1 : strictEq (additionalProperty field) (.bool true) = true
      · simp [h1]
      · by_cases h2 : truthy (additionalProperty field) = true
        · simp [h1, h2]
        · simp [h1, h2]
    | some node =>
      cases hv : ownsKey value "hasOwnProperty"
      · cases hvp : ownsKey value p
        · cases hn : ownsKey node.rules "hasOwnProperty"
          · simp [hv, hvp, hn]
          · simp [hv, hvp, hn]
        · simp [hv, hvp]
      · simp [hv]
  · simp

/-- What a visit that does not throw does as to delegation. -/
theorem properties_delegated_of_reaches (field : Field) (accept : PropertiesSchema)
    (value : Obj) (p : String) (h : properties_reaches field accept value p = true) :
    properties_delegated field accept value p = .ok (properties_schema field accept value p) := by
  obtain ⟨ha, hnode⟩ := (properties_reaches_iff field accept value p).mp h
  unfold properties_delegated declared properties_schema
  rw [hasOwnProperty_plain accept p ha]
  cases hs : schemaOf accept p with
  | none =>
    simp only
    repeat' split
    all_goals rfl
  | some node =>
    obtain ⟨hv, hdef⟩ := hnode node hs
    simp only
    rw [hasOwnProperty_plain value p hv]
    cases hvp : ownsKey value p
    · simp only
      rw [hasOwnProperty_plain node.rules "default" (hdef hvp)]
      rfl
    · rfl

/-- A visit that does not throw is a write followed by one `end` call. -/
theorem properties_visit_of_reaches (rt : Runtime) (field : Field) (accept : PropertiesSchema)
    (addr : Nat) (value : Obj) (p : String)
    (h : properties_reaches field accept value p = true) (t : Join Obj) :
    properties_visit rt field accept addr value t p =
      .ok (end_ (properties_err rt field accept addr value p)
        { t with result := properties_write rt field accept addr value t.result p }) := by
  obtain ⟨ha, hnode⟩ := (properties_reaches_iff field accept value p).mp h
  unfold properties_visit declared properties_err properties_write properties_written
    properties_schema properties_callback
  rw [hasOwnProperty_plain accept p ha]
  cases hs : schemaOf accept p with
  | none =>
    simp only
    by_cases h1 : strictEq (additionalProperty field) (.bool true) = true
    · simp [h1]
    · by_cases h2 : truthy (additionalProperty field) = true
      · simp [h1, h2]
      · simp [h1, h2]
  | some node =>
    obtain ⟨hv, hdef⟩ := hnode node hs
    simp only
    rw [hasOwnProperty_plain value p hv]
    cases hvp : ownsKey value p
    · simp only
      rw [hasOwnProperty_plain node.rules "default" (hdef hvp)]
      cases hd : ownsKey node.rules "default" <;> simp
    · simp

/-- The step of a property whose visit does not throw. -/
theorem properties_step_of_reaches (rt : Runtime) (field : Field) (accept : PropertiesSchema)
    (addr : Nat) (value : Obj) (p : String)
    (h : properties_reaches field accept value p = true) (t : Join Obj) :
    properties_step rt field accept addr value t p =
      end_ (properties_err rt field accept addr value p)
        { t with result := properties_write rt field accept addr value t.result p } := by
  unfold properties_step
  rw [properties_visit_of_reaches rt field accept addr value p h t]

/-- Every visited property is one whose visit does not throw. -/
theorem reaches_of_mem_visited (field : Field) (accept : PropertiesSchema) (value : Obj)
    (p : String) (h : p ∈ properties_visited field accept value) :
    properties_reaches field accept value p = true :=
  List.mem_takeWhile_imp h

/-- The visited properties belong to the working set. -/
theorem mem_workingSet_of_visited (field : Field) (accept : PropertiesSchema) (value : Obj)
    (p : String) (h : p ∈ properties_visited field accept value) :
    p ∈ workingSet accept value :=
  (List.takeWhile_sublist _).subset h

/-- No more properties are visited than the working set holds. -/
theorem length_visited_le (field : Field) (accept : PropertiesSchema) (value : Obj) :
    (properties_visited field accept value).length ≤ (workingSet accept value).length :=
  (List.takeWhile_sublist _).length_le

/-- When no `hasOwnProperty` call can hit an own key named `hasOwnProperty`, the loop visits
the whole working set. -/
theorem properties_visited_of_plain (field : Field) (accept : PropertiesSchema) (value : Obj)
    (ha : ownsKey accept "hasOwnProperty" = false)
    (hv : ownsKey value "hasOwnProperty" = false)
    (hn : ∀ p node, schemaOf accept p = some node →
      ownsKey node.rules "hasOwnProperty" = false) :
    properties_visited field accept value = workingSet accept value := by
  unfold properties_visited
  rw [List.takeWhile_eq_self_iff]
  intro p _
  exact (properties_reaches_iff field accept value p).mpr
    ⟨ha, fun node hs => ⟨hv, fun _ => hn p node hs⟩⟩

/-- The local `result` after a run over properties whose visits do not throw is the fold of
their writes. -/
theorem properties_result_fold (rt : Runtime) (field : Field) (accept : PropertiesSchema)
    (addr : Nat) (value : Obj) :
    ∀ (order : List String) (s : Join Obj),
      (∀ p ∈ order, properties_reaches field accept value p = true) →
      (order.foldl (properties_step rt field accept addr value) s).result =
        order.foldl (properties_write rt field accept addr value) s.result := by
  intro order
  induction order with
  | nil => intro s _; rfl
  | cons a rest ih =>
    intro s hall
    simp only [List.foldl_cons]
    rw [ih _ (fun p hp => hall p (List.mem_cons_of_mem a hp)),
      properties_step_of_reaches rt field accept addr value a
        (hall a (List.mem_cons_self a rest)), end_result]

/-- Once the counter is `null`, no further element calls `done`. -/
theorem join_fold_dead {ρ α : Type} (step : Join ρ → α → Join ρ) (w : ρ → α → ρ)
    (e : α → JSVal) :
    ∀ (order : List α) (s : Join ρ),
      (∀ a ∈ order, ∀ t : Join ρ, step t a = end_ (e a) { t with result := w t.result a }) →
      s.l = none →
      (order.foldl step s).l = none ∧ (order.foldl step s).doneCalls = s.doneCalls := by
  intro order
  induction order with
  | nil => intro s _ hl; exact ⟨hl, rfl⟩
  | cons a rest ih =>
    intro s hstep hl
    have h1 : step s a = { s with result := w s.result a } := by
      rw [hstep a (List.mem_cons_self a rest) s]
      exact end_dead (e a) _ hl
    simp only [List.foldl_cons]
    obtain ⟨h2, h3⟩ := ih (step s a) (fun b hb => hstep b (List.mem_cons_of_mem a hb))
      (by rw [h1]; exact hl)
    refine ⟨h2, ?_⟩
    rw [h3, h1]

/-- First error wins: when the elements before `a` end without error, fewer of them than the
counter, and `a` ends with a truthy error, `done` is called exactly once more, with the
error of `a`, whatever comes after. -/
theorem join_fold_error {ρ α : Type} (step : Join ρ → α → Join ρ) (w : ρ → α → ρ)
    (e : α → JSVal) (pre post : List α) (a : α)
    (hstep : ∀ b ∈ pre ++ a :: post, ∀ t : Join ρ,
      step t b = end_ (e b) { t with result := w t.result b })
    (s : Join ρ) (n : Nat)
    (hpre : ∀ b ∈ pre, truthy (e b) = false) (ha : truthy (e a) = true)
    (hl : s.l = some (n : Int)) (hlen : pre.length < n) :
    ((pre ++ a :: post).foldl step s).doneCalls =
      s.doneCalls ++ [⟨[e a], w (pre.foldl w s.result) a⟩] := by
  have hmem_pre : ∀ b ∈ pre, b ∈ pre ++ a :: post := fun b hb =>
    List.mem_append.mpr (Or.inl hb)
  have hmem_a : a ∈ pre ++ a :: post :=
    List.mem_append.mpr (Or.inr (List.mem_cons_self a post))
  have hmem_post : ∀ b ∈ post, b ∈ pre ++ a :: post := fun b hb =>
    List.mem_append.mpr (Or.inr (List.mem_cons_of_mem a hb))
  obtain ⟨hl1, hr1, hd1, _⟩ :=
    join_fold step w e pre s n hpre (fun b hb t => hstep b (hmem_pre b hb) t) hl
      (le_of_lt hlen)
  have hstepa : step (pre.foldl step s) a =
      { l := none, result := w (pre.foldl w s.result) a,
        doneCalls := s.doneCalls ++ [⟨[e a], w (pre.foldl w s.result) a⟩] } := by
    have h := end_truthy (e a) ha
      { (pre.foldl step s) with result := w (pre.foldl step s).result a }
      ((n : Int) - pre.length) hl1
    rw [hstep a hmem_a, h]
    simp only [hr1, hd1 hlen]
  rw [List.foldl_append, List.foldl_cons]
  obtain ⟨_, hd2⟩ := join_fold_dead step w e post (step (pre.foldl step s) a)
    (fun b hb t => hstep b (hmem_post b hb) t) (by rw [hstepa])
  rw [hd2, hstepa]

/-- On a non-empty working set that the loop visits in full and whose delegated children all
succeed, `properties` calls `done` exactly once, with a falsy error, when the last element has
ended. -/
theorem properties_join_of_nonempty (rt : Runtime) (field : Field) (accept : PropertiesSchema)
    (addr : Nat) (value : Obj) (order : List String)
    (hperm : order.Perm (workingSet accept value))
    (hfull : properties_visited field accept value = workingSet accept value)
    (hne : workingSet accept value ≠ [])
    (hok : ∀ a ∈ workingSet accept value,
      truthy (properties_err rt field accept addr value a) = false) :
    ∃ err, truthy err = false ∧
      (properties_async rt field accept addr value order).doneCalls.map (fun d => d.args)
        = [[err]] := by
  have hlen : order.length = (workingSet accept value).length := hperm.length_eq
  have hreach : ∀ a ∈ order, properties_reaches field accept value a = true := by
    intro a ha
    apply reaches_of_mem_visited
    rw [hfull]
    exact hperm.mem_iff.mp ha
  obtain ⟨_, _, _, heq⟩ :=
    join_fold (properties_step rt field accept addr value)
      (properties_write rt field accept addr value)
      (properties_err rt field accept addr value) order
      ⟨some (workingSet accept value).length, [], []⟩ (workingSet accept value).length
      (fun a ha => hok a (hperm.mem_iff.mp ha))
      (fun a ha t => properties_step_of_reaches rt field accept addr value a (hreach a ha) t)
      rfl (le_of_eq hlen)
  obtain ⟨a, ha, hdone⟩ := heq hlen (List.length_pos.mpr hne)
  refine ⟨properties_err rt field accept addr value a, hok a (hperm.mem_iff.mp ha), ?_⟩
  unfold properties_async
  rw [hdone]
  rfl

/-! ## Synchronous rules -/

/-- On a value that does not own the name `hasOwnProperty`, the loop of `required` raises one
issue per listed name the value does not own. -/
theorem required_loop_plain (value : Obj) (h : ownsKey value "hasOwnProperty" = false) :
    ∀ (accept : List String) (init : List Obj),
      required_loop value accept init =
        .ok (init ++ (accept.filter (fun property => !ownsKey value property)).map
          (fun property => [("path", JSVal.str property), ("rule", JSVal.str "required")])) := by
  intro accept
  induction accept with
  | nil => intro init; simp [required_loop]
  | cons a rest ih =>
    intro init
    unfold required_loop
    rw [hasOwnProperty_plain value a h]
    cases ha : ownsKey value a
    · simp only
      rw [ih]
      simp [ha]
    · simp only
      rw [ih]
      simp [ha]

theorem strictEq_symm (a b : JSVal) (h : strictEq a b = true) : strictEq b a = true := by
  cases a <;> cases b <;> simp_all [strictEq]

/-- Strict equality is transitive. -/
theorem strictEq_trans (a b c : JSVal) (h1 : strictEq a b = true) (h2 : strictEq b c = true) :
    strictEq a c = true := by
  cases a <;> cases b <;> simp [strictEq] at h1 <;> cases c <;> simp_all [strictEq]

theorem indexOf_ge (xs : List JSVal) (item : JSVal) : -1 ≤ indexOf xs item := by
  induction xs with
  | nil => simp [indexOf]
  | cons x rest ih =>
    unfold indexOf
    split
    · omega
    · split <;> omega

/-- The call `xs.indexOf(item)` is above -1 exactly when some element is strictly equal to
the item. -/
theorem indexOf_found (xs : List JSVal) (item : JSVal) :
    indexOf xs item > -1 ↔ xs.any (fun y => strictEq y item) = true := by
  induction xs with
  | nil => simp [indexOf]
  | cons x rest ih =>
    unfold indexOf
    by_cases hx : strictEq x item = true
    · simp [hx]
    · simp only [hx, if_false, List.any_cons, Bool.false_eq_true]
      have hge := indexOf_ge rest item
      by_cases hr : indexOf rest item > -1
      · simp only [hr, if_true]
        have := ih.mp hr
        simp only [this, Bool.or_true, iff_true]
        omega
      · simp only [hr, if_false]
        have hnot : ¬ (rest.any (fun y => strictEq y item) = true) := fun h => hr (ih.mpr h)
        simp only [gt_iff_lt, lt_self_iff_false, false_iff]
        simpa using hnot

/-- The loop of `uniqueItems` raises its issues at the later duplicates, as long as `unique`
recognises exactly the values strictly equal to an item already seen. -/
theorem uniqueItems_loop_spec :
    ∀ (rest seen unique : List JSVal) (i : Nat) (issues : List Obj),
      (∀ x, unique.any (fun y => strictEq y x) = seen.any (fun y => strictEq y x)) →
      uniqueItems_loop rest i unique issues =
        issues ++ (laterDuplicates seen rest i).map uniqueItems_issue := by
  intro rest
  induction rest with
  | nil => intro seen unique i issues _; simp [uniqueItems_loop, laterDuplicates]
  | cons item rest ih =>
    intro seen unique i issues hinv
    unfold uniqueItems_loop laterDuplicates
    by_cases hdup : indexOf unique item > -1
    · have hu : unique.any (fun y => strictEq y item) = true := (indexOf_found unique item).mp hdup
      have hs : seen.any (fun y => strictEq y item) = true := by rw [← hinv]; exact hu
      simp only [hdup, if_true, hs]
      rw [ih (seen ++ [item]) unique (i + 1) (issues ++ [uniqueItems_issue i])]
      · simp
      · intro x
        rw [List.any_append, ← hinv x]
        by_cases hx : strictEq item x = true
        · obtain ⟨u, hu1, hu2⟩ := List.any_eq_true.mp hu
          have : unique.any (fun y => strictEq y x) = true :=
            List.any_eq_true.mpr ⟨u, hu1, strictEq_trans u item x hu2 hx⟩
          simp [this]
        · simp [hx]
    · have hu : ¬ (unique.any (fun y => strictEq y item) = true) :=
        fun h => hdup ((indexOf_found unique item).mpr h)
      have hs : ¬ (seen.any (fun y => strictEq y item) = true) := by rw [← hinv]; exact hu
      simp only [hdup, if_false, hs]
      rw [ih (seen ++ [item]) (unique ++ [item]) (i + 1) issues]
      · simp
      · intro x
        rw [List.any_append, List.any_append, hinv x]

/-- The later duplicates, by index: the indices `i + k` such that an item before position
`k` of `rest`, or an item of `seen`, is strictly equal to the item at position `k`. -/
theorem laterDuplicates_eq :
    ∀ (rest seen : List JSVal) (i : Nat),
      laterDuplicates seen rest i =
        ((List.range rest.length).filter
          (fun k => (seen ++ rest.take k).any
            (fun y => strictEq y (rest.getD k .undefined)))).map (fun k => i + k) := by
  intro rest
  induction rest with
  | nil => intro seen i; simp [laterDuplicates]
  | cons item rest ih =>
    intro seen i
    unfold laterDuplicates
    rw [ih (seen ++ [item]) (i + 1)]
    have hmap : (fun k => i + 1 + k) = (fun k => i + k) ∘ Nat.succ := by
      funext k
      simp only [Function.comp]
      omega
    have hfil : ((fun k => (seen ++ (item :: rest).take k).any
          (fun y => strictEq y ((item :: rest).getD k .undefined))) ∘ Nat.succ)
        = (fun k => (seen ++ [item] ++ rest.take k).any
          (fun y => strictEq y (rest.getD k .undefined))) := by
      funext k
      simp [Function.comp]
    have h00 : ((seen ++ (item :: rest).take 0).any
          (fun y => strictEq y ((item :: rest).getD 0 .undefined)))
        = seen.any (fun y => strictEq y item) := by
      simp
    rw [List.length_cons, List.range_succ_eq_map, List.filter_cons, List.filter_map, hfil, h00,
      hmap]
    by_cases h0 : seen.any (fun y => strictEq y item) = true
    · simp only [h0, if_true, List.map_cons, List.map_map, List.singleton_append, Nat.add_zero]
    · simp only [h0, if_false, List.map_map, List.nil_append, Bool.false_eq_true]

/-- Truncating a whole number leaves it unchanged. -/
theorem truncate_intCast (k : Int) : truncate (k : ℚ) = k := by
  unfold truncate
  rw [Rat.num_intCast, Rat.den_intCast]
  simp

/-- For whole numbers and a non-zero divisor, the remainder is zero exactly when the divisor
divides the dividend. -/
theorem rem_zero_iff_dvd (v a : Int) (ha : a ≠ 0) :
    (v : ℚ) - (a : ℚ) * (truncate ((v : ℚ) / (a : ℚ)) : ℚ) = 0 ↔ a ∣ v := by
  constructor
  · intro h
    refine ⟨truncate ((v : ℚ) / (a : ℚ)), ?_⟩
    have h2 : (v : ℚ) = ((a * truncate ((v : ℚ) / (a : ℚ)) : Int) : ℚ) := by
      push_cast
      linarith
    exact_mod_cast h2
  · rintro ⟨k, rfl⟩
    have haq : (a : ℚ) ≠ 0 := by exact_mod_cast ha
    have hq : (((a * k : Int) : ℚ)) / (a : ℚ) = (k : ℚ) := by
      push_cast
      field_simp
    rw [hq, truncate_intCast]
    push_cast
    ring

/-! ## The assembled mapping, key by key -/

/-- The entry of a name other than `__proto__` after a fold of writes: what was written for
that name when the name was visited and written, the earlier entry otherwise. -/
theorem properties_write_fold_get (rt : Runtime) (field : Field) (accept : PropertiesSchema)
    (addr : Nat) (value : Obj) (k : String) (hk : k ≠ "__proto__") :
    ∀ (order : List String) (r : Obj),
      getProp (order.foldl (properties_write rt field accept addr value) r) k =
        if k ∈ order then
          match properties_written rt field accept addr value k with
          | some v => v
          | none => getProp r k
        else getProp r k := by
  intro order
  induction order with
  | nil => intro r; simp
  | cons a rest ih =>
    intro r
    simp only [List.foldl_cons]
    rw [ih]
    unfold properties_write
    by_cases hak : a = k
    · subst hak
      cases hw : properties_written rt field accept addr value a with
      | none => simp
      | some v => simp [getProp_setProp _ _ _ _ hk]
    · have hka : ¬ k = a := fun e => hak e.symm
      cases hw : properties_written rt field accept addr value a with
      | none => simp [hka]
      | some v => simp [getProp_setProp _ _ _ _ hk, hak, hka]

/-- The keys after a fold of writes: the earlier keys and the names, other than `__proto__`,
that were visited and written. -/
theorem properties_write_fold_keys (rt : Runtime) (field : Field) (accept : PropertiesSchema)
    (addr : Nat) (value : Obj) (k : String) :
    ∀ (order : List String) (r : Obj),
      k ∈ keys (order.foldl (properties_write rt field accept addr value) r) ↔
        k ∈ keys r ∨
          (k ≠ "__proto__" ∧ k ∈ order ∧
            (properties_written rt field accept addr value k).isSome = true) := by
  intro order
  induction order with
  | nil => intro r; simp
  | cons a rest ih =>
    intro r
    simp only [List.foldl_cons]
    rw [ih]
    unfold properties_write
    by_cases hak : a = k
    · subst hak
      cases hw : properties_written rt field accept addr value a with
      | none => simp
      | some v =>
        simp only [mem_keys_setProp, List.mem_cons, true_or, Option.isSome_some, and_true]
        tauto
    · have hka : ¬ k = a := fun e => hak e.symm
      cases hw : properties_written rt field accept addr value a with
      | none => simp [hka]
      | some v =>
        simp only [mem_keys_setProp, List.mem_cons, hka, false_or, false_and, or_false]

/-- The children whose path is `k` are the children made for the occurrences of `k`. -/
theorem children_filter_path (field : Field) (accept : PropertiesSchema) (addr : Nat)
    (value : Obj) (k : String) :
    ∀ names : List String,
      (names.filterMap
          (fun property =>
            (properties_schema field accept value property).map
              (properties_child addr value property))).filter
          (fun c => strictEq c.path (.str k)) =
        (names.filter (fun property => decide (property = k))).filterMap
          (fun property =>
            (properties_schema field accept value property).map
              (properties_child addr value property)) := by
  intro names
  induction names with
  | nil => rfl
  | cons a rest ih =>
    cases hd : properties_schema field accept value a with
    | none =>
      have h1 : (a :: rest).filterMap
          (fun property =>
            (properties_schema field accept value property).map
              (properties_child addr value property)) =
          rest.filterMap
            (fun property =>
              (properties_schema field accept value property).map
                (properties_child addr value property)) := by
        simp [List.filterMap_cons, hd]
      rw [h1, ih]
      by_cases hak : a = k
      · subst hak
        simp [List.filter_cons, List.filterMap_cons, hd]
      · simp [List.filter_cons, hak]
    | some schema =>
      have h1 : (a :: rest).filterMap
          (fun property =>
            (properties_schema field accept value property).map
              (properties_child addr value property)) =
          properties_child addr value a schema :: rest.filterMap
            (fun property =>
              (properties_schema field accept value property).map
                (properties_child addr value property)) := by
        simp [List.filterMap_cons, hd]
      have hp : strictEq (properties_child addr value a schema).path (.str k)
          = decide (a = k) := rfl
      rw [h1, List.filter_cons, hp, ih]
      by_cases hak : a = k
      · subst hak
        simp [List.filter_cons, List.filterMap_cons, hd]
      · simp [List.filter_cons, hak]

theorem filter_eq_nil_of_not_mem (k : String) (l : List String) (h : k ∉ l) :
    l.filter (fun property => decide (property = k)) = [] := by
  rw [List.filter_eq_nil_iff]
  intro a ha
  simp only [decide_eq_true_eq]
  intro e
  exact h (e ▸ ha)

theorem workingSet_fold_filter (k : String) :
    ∀ (ks init : List String),
      (ks.foldl
          (fun properties property =>
            if property ∈ properties then properties else properties ++ [property])
          init).filter (fun property => decide (property = k)) =
        if k ∈ init then init.filter (fun property => decide (property = k))
        else if k ∈ ks then [k] else [] := by
  intro ks
  induction ks with
  | nil =>
    intro init
    by_cases h : k ∈ init
    · simp [h]
    · simp [h, filter_eq_nil_of_not_mem k init h]
  | cons x rest ih =>
    intro init
    simp only [List.foldl_cons]
    rw [ih]
    by_cases hx : x ∈ init
    · simp only [hx, if_true]
      by_cases hk : k ∈ init
      · simp [hk]
      · have hne : ¬ k = x := fun e => hk (e ▸ hx)
        simp [hk, hne]
    · simp only [hx, if_false]
      by_cases hk : k ∈ init
      · have hne : ¬ x = k := fun e => hx (e ▸ hk)
        simp [hk, List.filter_append, List.filter_cons, hne]
      · by_cases hxk : x = k
        · subst hxk
          simp [hk, List.filter_append, List.filter_cons, filter_eq_nil_of_not_mem x init hk]
        · have hkx : ¬ k = x := fun e => hxk e.symm
          simp [hk, hkx]

/-- A key of the value that is not declared occurs exactly once in the working set. -/
theorem workingSet_filter_undeclared (accept : PropertiesSchema) (value : Obj) (k : String)
    (hk : k ∈ keys value) (hund : k ∉ keys accept) :
    (workingSet accept value).filter (fun property => decide (property = k)) = [k] := by
  unfold workingSet
  rw [workingSet_fold_filter]
  simp [hund, hk]

/-- A name that occurs once in the working set and is visited occurs once among the visited
properties. -/
theorem visited_filter_singleton (field : Field) (accept : PropertiesSchema) (value : Obj)
    (k : String)
    (hone : (workingSet accept value).filter (fun property => decide (property = k)) = [k])
    (hk : k ∈ properties_visited field accept value) :
    (properties_visited field accept value).filter (fun property => decide (property = k))
      = [k] := by
  have hsplit : properties_visited field accept value ++
      (workingSet accept value).dropWhile (properties_reaches field accept value) =
      workingSet accept value := List.takeWhile_append_dropWhile _ _
  rw [← hsplit, List.filter_append] at hone
  have hmem : k ∈ (properties_visited field accept value).filter
      (fun property => decide (property = k)) := by
    rw [List.mem_filter]
    exact ⟨hk, by simp⟩
  cases hf : (properties_visited field accept value).filter
      (fun property => decide (property = k)) with
  | nil => rw [hf] at hmem; cases hmem
  | cons x xs =>
    rw [hf] at hone
    simp only [List.cons_append, List.cons.injEq] at hone
    obtain ⟨hx, hrest⟩ := hone
    have hxs : xs = [] := (List.append_eq_nil.mp hrest).1
    rw [hx, hxs]

/-- The children created over a list of names are the children of the names visited. -/
theorem properties_created_eq (field : Field) (accept : PropertiesSchema) (addr : Nat)
    (value : Obj) :
    ∀ names : List String,
      properties_created field accept addr value names =
        (names.takeWhile (properties_reaches field accept value)).filterMap
          (fun property =>
            (properties_schema field accept value property).map
              (properties_child addr value property)) := by
  intro names
  induction names with
  | nil => rfl
  | cons a rest ih =>
    unfold properties_created
    by_cases hr : properties_reaches field accept value a = true
    · rw [List.takeWhile_cons_of_pos hr, properties_delegated_of_reaches field accept value a hr]
      cases hs : properties_schema field accept value a with
      | none => simp [List.filterMap_cons, hs, ih]
      | some schema => simp [List.filterMap_cons, hs, ih]
    · rw [List.takeWhile_cons_of_neg hr]
      have hr2 : properties_reaches field accept value a = false := by simpa using hr
      unfold properties_reaches at hr2
      cases hd : properties_delegated field accept value a with
      | error e => rfl
      | ok d => rw [hd] at hr2; simp at hr2

/-- The children of `properties`: those of the visited properties. -/
theorem properties_children_eq (field : Field) (accept : PropertiesSchema) (addr : Nat)
    (value : Obj) :
    properties_children field accept addr value =
      (properties_visited field accept value).filterMap
        (fun property =>
          (properties_schema field accept value property).map
            (properties_child addr value property)) :=
  properties_created_eq field accept addr value (workingSet accept value)

/-- The children of `properties` whose path is an undeclared key of the value that the loop
visits: the single child of that key when the key is delegated, none otherwise. -/
theorem properties_children_undeclared (field : Field) (accept : PropertiesSchema) (addr : Nat)
    (value : Obj) (k : String) (hk : ownsKey value k = true)
    (hund : schemaOf accept k = none)
    (hvis : k ∈ properties_visited field accept value) :
    (properties_children field accept addr value).filter (fun c => strictEq c.path (.str k)) =
      match properties_schema field accept value k with
      | some schema => [properties_child addr value k schema]
      | none => [] := by
  rw [properties_children_eq, children_filter_path,
    visited_filter_singleton field accept value k
      (workingSet_filter_undeclared accept value k ((ownsKey_iff value k).mp hk)
        ((schemaOf_none_iff accept k).mp hund)) hvis]
  cases hd : properties_schema field accept value k with
  | none => simp [List.filterMap_cons, hd]
  | some schema => simp [List.filterMap_cons, hd]

/-- No child of `properties` has the path of a name that is not delegated. -/
theorem properties_children_not_delegated (field : Field) (accept : PropertiesSchema)
    (addr : Nat) (value : Obj) (k : String)
    (hnone : properties_schema field accept value k = none) :
    (properties_children field accept addr value).filter (fun c => strictEq c.path (.str k))
      = [] := by
  rw [properties_children_eq, children_filter_path, List.filterMap_eq_nil_iff]
  intro a ha
  have hak : a = k := by simpa using (List.mem_filter.mp ha).2
  subst hak
  rw [hnone]
  rfl

/-- No child of `properties` has the path of a name the loop does not visit. -/
theorem properties_children_not_visited (field : Field) (accept : PropertiesSchema)
    (addr : Nat) (value : Obj) (k : String)
    (hvis : k ∉ properties_visited field accept value) :
    (properties_children field accept addr value).filter (fun c => strictEq c.path (.str k))
      = [] := by
  rw [properties_children_eq, children_filter_path, List.filterMap_eq_nil_iff]
  intro a ha
  have hmem := List.mem_filter.mp ha
  have hak : a = k := by simpa using hmem.2
  subst hak
  exact absurd hmem.1 hvis

/-- The local `result` of a run over the visited properties. -/
theorem properties_async_result (rt : Runtime) (field : Field) (accept : PropertiesSchema)
    (addr : Nat) (value : Obj) (order : List String)
    (hperm : order.Perm (properties_visited field accept value)) :
    (properties_async rt field accept addr value order).result =
      order.foldl (properties_write rt field accept addr value) [] := by
  unfold properties_async
  rw [properties_result_fold rt field accept addr value order _
    (fun p hp => reaches_of_mem_visited field accept value p (hperm.mem_iff.mp hp))]

/-- The entry, in the assembled `result`, of a visited name other than `__proto__`. -/
theorem properties_result_get (rt : Runtime) (field : Field) (accept : PropertiesSchema)
    (addr : Nat) (value : Obj) (order : List String)
    (hperm : order.Perm (properties_visited field accept value)) (k : String)
    (hk : k ∈ properties_visited field accept value) (hproto : k ≠ "__proto__") :
    getProp (properties_async rt field accept addr value order).result k =
      match properties_written rt field accept addr value k with
      | some v => v
      | none => .undefined := by
  rw [properties_async_result rt field accept addr value order hperm,
    properties_write_fold_get rt field accept addr value k hproto]
  have hmem : k ∈ order := hperm.mem_iff.mpr hk
  simp only [hmem, if_true]
  cases properties_written rt field accept addr value k <;> rfl

/-- The keys of the assembled `result`: the visited names, other than `__proto__`, that are
written. -/
theorem properties_result_keys (rt : Runtime) (field : Field) (accept : PropertiesSchema)
    (addr : Nat) (value : Obj) (order : List String)
    (hperm : order.Perm (properties_visited field accept value)) (k : String) :
    k ∈ keys (properties_async rt field accept addr value order).result ↔
      k ≠ "__proto__" ∧ k ∈ properties_visited field accept value ∧
        (properties_written rt field accept addr value k).isSome = true := by
  rw [properties_async_result rt field accept addr value order hperm,
    properties_write_fold_keys, hperm.mem_iff]
  simp [keys]

/-- Idempotence of `properties` away from the empty working set and from throwing loops.  Let
`r` be the mapping assembled by a first pass whose loop visits the whole working set.  If the
loop of a second pass on `r` visits its whole working set, that working set is not empty, and
every child created in that pass succeeds and reports the value it was given, then the second
pass calls `done` exactly once, without error, and assembles a mapping with the keys and the
entries of `r`. -/
theorem properties_idempotent_of_accepting_children (rt : Runtime) (field : Field)
    (accept : PropertiesSchema) (addr addr2 : Nat) (value : Obj) (order order2 : List String)
    (hfull : properties_visited field accept value = workingSet accept value)
    (hperm : order.Perm (workingSet accept value))
    (hfull2 : properties_visited field accept
        (properties_async rt field accept addr value order).result =
      workingSet accept (properties_async rt field accept addr value order).result)
    (hperm2 : order2.Perm
      (workingSet accept (properties_async rt field accept addr value order).result))
    (hne : workingSet accept (properties_async rt field accept addr value order).result ≠ [])
    (hacc : ∀ p schema,
      properties_schema field accept
          (properties_async rt field accept addr value order).result p = some schema →
        truthy (rt (properties_child addr2
          (properties_async rt field accept addr value order).result p schema)).err = false ∧
        (rt (properties_child addr2
          (properties_async rt field accept addr value order).result p schema)).value =
          getProp (properties_async rt field accept addr value order).result p) :
    (∃ err, truthy err = false ∧
      (properties_async rt field accept addr2
          (properties_async rt field accept addr value order).result order2).doneCalls.map
        (fun d => d.args) = [[err]]) ∧
    ∀ k,
      (k ∈ keys (properties_async rt field accept addr2
          (properties_async rt field accept addr value order).result order2).result ↔
        k ∈ keys (properties_async rt field accept addr value order).result) ∧
      getProp (properties_async rt field accept addr2
          (properties_async rt field accept addr value order).result order2).result k =
        getProp (properties_async rt field accept addr value order).result k := by
  have hk1 : ∀ k, k ∈ keys (properties_async rt field accept addr value order).result ↔
      k ≠ "__proto__" ∧ k ∈ workingSet accept value ∧
      (properties_written rt field accept addr value k).isSome = true := by
    intro k
    have h := properties_result_keys rt field accept addr value order (by rw [hfull]; exact hperm) k
    rw [hfull] at h
    exact h
  generalize (properties_async rt field accept addr value order).result = r at *
  have hperm2' : order2.Perm (properties_visited field accept r) := by
    rw [hfull2]
    exact hperm2
  constructor
  · refine properties_join_of_nonempty rt field accept addr2 r order2 hperm2 hfull2 hne ?_
    intro a _
    unfold properties_err
    cases hd : properties_schema field accept r a with
    | none => rfl
    | some schema => exact (hacc a schema hd).1
  · intro k
    have hk2 := properties_result_keys rt field accept addr2 r order2 hperm2' k
    rw [hfull2] at hk2
    have hws2 : k ∈ workingSet accept r ↔ k ∈ keys accept ∨ k ∈ keys r :=
      mem_workingSet accept r k
    have hws1 : k ∈ workingSet accept value ↔ k ∈ keys accept ∨ k ∈ keys value :=
      mem_workingSet accept value k
    by_cases hin : k ∈ keys r
    · -- a key of `r` is visited by the second pass and written with its own entry
      have hown : ownsKey r k = true := (ownsKey_iff r k).mpr hin
      have hw1 := (hk1 k).mp hin
      have hw2 : properties_written rt field accept addr2 r k = some (getProp r k) := by
        cases hd : schemaOf accept k with
        | some node =>
          have hdel : properties_schema field accept r k = some node.toVal := by
            simp [properties_schema, hd, hown]
          simp only [properties_written, hdel]
          rw [(hacc k node.toVal hdel).2]
        | none =>
          by_cases h1 : strictEq (additionalProperty field) (.bool true) = true
          · have hdel : properties_schema field accept r k = none := by
              simp [properties_schema, hd, h1]
            simp [properties_written, hdel, hd, h1]
          · by_cases h2 : truthy (additionalProperty field) = true
            · have hdel : properties_schema field accept r k =
                  some (additionalProperty field) := by
                simp [properties_schema, hd, h1, h2]
              simp only [properties_written, hdel]
              rw [(hacc k (additionalProperty field) hdel).2]
            · exfalso
              have hdel1 : properties_schema field accept value k = none := by
                simp [properties_schema, hd, h1, h2]
              have hnone : properties_written rt field accept addr value k = none := by
                simp [properties_written, hdel1, hd, h1]
              rw [hnone] at hw1
              cases hw1.2.2
      have hin2 : k ∈ workingSet accept r := hws2.mpr (Or.inr hin)
      have hvis2 : k ∈ properties_visited field accept r := by rw [hfull2]; exact hin2
      have hg2 := properties_result_get rt field accept addr2 r order2 hperm2' k hvis2 hw1.1
      rw [hw2] at hk2 hg2
      exact ⟨⟨fun _ => hin, fun _ => hk2.mpr ⟨hw1.1, hin2, rfl⟩⟩, hg2⟩
    · -- a name that is not a key of `r` is not written by the second pass
      have hown : ¬ ownsKey r k = true := fun h => hin ((ownsKey_iff r k).mp h)
      have hnot2 : k ∉ keys (properties_async rt field accept addr2 r order2).result := by
        intro h2
        obtain ⟨hproto, hmem, hsome⟩ := hk2.mp h2
        have hacc_k : k ∈ keys accept := by
          rcases hws2.mp hmem with h | h
          · exact h
          · exact absurd h hin
        cases hd : schemaOf accept k with
        | none => exact absurd hacc_k ((schemaOf_none_iff accept k).mp hd)
        | some node =>
          have hdel : properties_schema field accept r k = none := by
            simp [properties_schema, hd, hown]
          have hmem1 : k ∈ workingSet accept value := hws1.mpr (Or.inl hacc_k)
          apply hin
          refine (hk1 k).mpr ⟨hproto, hmem1, ?_⟩
          by_cases hdef : ownsKey node.rules "default" = true
          · by_cases hv : ownsKey value k = true
            · simp [properties_written, properties_schema, hd, hv]
            · simp [properties_written, properties_schema, hd, hv, hdef]
          · exfalso
            have hnone : properties_written rt field accept addr2 r k = none := by
              simp [properties_written, hdel, hd, hdef]
            rw [hnone] at hsome
            cases hsome
      refine ⟨⟨fun h => absurd h hnot2, fun h => absurd h hin⟩, ?_⟩
      rw [getProp_of_not_mem _ k hnot2, getProp_of_not_mem r k hin]

/-! ## Claims -/

/-- C1. `items`, index-stable write-back: for every array, every child runtime whose children
all succeed, and every order (permutation of the indices) in which the children report,
every call of `done` sees a `result` array of the length of the input whose entry `i` is the
value reported by the child created for `input[i]`; and for a non-empty input `done` is
called, so the statement is not empty. -/
theorem items_index_stable (rt : Runtime) (accept : JSVal) (addr : Nat) (items : List JSVal)
    (order : List Nat) (hperm : order.Perm (List.range items.length))
    (hok : ∀ i, i < items.length → truthy (rt (items_child accept addr items i)).err = false) :
    (items ≠ [] → (items_async rt accept addr items order).doneCalls.length = 1) ∧
    ∀ d ∈ (items_async rt accept addr items order).doneCalls,
      d.result.length = items.length ∧
      ∀ i, i < items.length →
        d.result[i]? = some (some (rt (items_child accept addr items i)).value) := by
  have hmem : ∀ i, i ∈ order ↔ i < items.length := fun i => by
    rw [hperm.mem_iff, List.mem_range]
  have hlen : order.length = items.length := by
    rw [hperm.length_eq, List.length_range]
  obtain ⟨_, _, hlt, heq⟩ :=
    join_fold (items_callback rt accept addr items)
      (fun r i => arrayAssign r i (rt (items_child accept addr items i)).value)
      (fun _ => JSVal.undefined) order ⟨some items.length, [], []⟩ items.length
      (fun _ _ => rfl)
      (fun i hi t => items_callback_ok rt accept addr items i (hok i ((hmem i).mp hi)) t)
      rfl (le_of_eq hlen)
  obtain ⟨hfl, hfv⟩ :=
    arrayAssign_fold (fun i => (rt (items_child accept addr items i)).value) items.length
      order [] (fun i hi => (hmem i).mp hi) (Nat.zero_le _)
  by_cases hnil : items = []
  · subst hnil
    have horder : order = [] := List.eq_nil_of_length_eq_zero (by simpa using hlen)
    subst horder
    refine ⟨fun h => absurd rfl h, fun d hd => ?_⟩
    simp [items_async] at hd
  · have hpos : 0 < items.length := List.length_pos.mpr hnil
    obtain ⟨_, _, hdone⟩ := heq hlen hpos
    have hdone' : (items_async rt accept addr items order).doneCalls =
        [⟨[JSVal.undefined],
          order.foldl (fun r i => arrayAssign r i (rt (items_child accept addr items i)).value)
            []⟩] := by
      simpa [items_async] using hdone
    refine ⟨fun _ => by rw [hdone']; rfl, fun d hd => ?_⟩
    rw [hdone'] at hd
    have hd' := List.mem_singleton.mp hd
    subst hd'
    have hall : ∀ i, i < items.length →
        (order.foldl (fun r i => arrayAssign r i (rt (items_child accept addr items i)).value)
          [])[i]? = some (some (rt (items_child accept addr items i)).value) :=
      fun i hi => hfv i (Or.inl ((hmem i).mpr hi))
    refine ⟨le_antisymm hfl ?_, hall⟩
    have hlast := hall (items.length - 1) (by omega)
    by_contra hcon
    have hcon' : (order.foldl
        (fun r i => arrayAssign r i (rt (items_child accept addr items i)).value) []).length
        ≤ items.length - 1 := by
      have := Nat.lt_of_not_le hcon
      exact Nat.le_sub_one_of_lt this
    rw [List.getElem?_eq_none hcon'] at hlast
    cases hlast

/-- Witness of C1: two items, the second child reporting first. -/
theorem items_index_stable_witness :
    [1, 0].Perm (List.range [JSVal.num 7, JSVal.str "x"].length) ∧
    ((items_async (fun c => ⟨.undefined, .undefined, c.value⟩) .null 0
        [JSVal.num 7, JSVal.str "x"] [1, 0]).doneCalls.length = 1) ∧
    ∀ d ∈ (items_async (fun c => ⟨.undefined, .undefined, c.value⟩) .null 0
        [JSVal.num 7, JSVal.str "x"] [1, 0]).doneCalls,
      d.result.length = 2 ∧ d.result[0]? = some (some (JSVal.num 7)) ∧
        d.result[1]? = some (some (JSVal.str "x")) := by
  have hperm : [1, 0].Perm (List.range [JSVal.num 7, JSVal.str "x"].length) := by decide
  have h := items_index_stable (fun c => ⟨.undefined, .undefined, c.value⟩) .null 0
    [JSVal.num 7, JSVal.str "x"] [1, 0] hperm (fun _ _ => rfl)
  refine ⟨hperm, h.1 (by simp), fun d hd => ?_⟩
  obtain ⟨hl, hv⟩ := h.2 d hd
  exact ⟨hl, hv 0 (by decide), hv 1 (by decide)⟩

/-- C2, as stated, fails.  The value `{a: 1, hasOwnProperty: 2}` under the schema `{a: {}}`:
the visit of `a` throws at `value.hasOwnProperty`, no property is visited and `result` stays
empty, though `a` is declared and present.  The value `{"__proto__": 5}` under the schema
`{"__proto__": {}}`: the property is delegated and its child reports 5, but the write goes to
the prototype setter and `result` has no key. -/
theorem properties_keys_not_closed :
    (properties_thrown ⟨[], true⟩ [("a", ⟨1, []⟩)]
        [("a", .num 1), ("hasOwnProperty", .num 2)] = some (.typeError "hasOwnProperty") ∧
    properties_visited ⟨[], true⟩ [("a", ⟨1, []⟩)]
        [("a", .num 1), ("hasOwnProperty", .num 2)] = [] ∧
    (properties_async (fun c => ⟨.null, .undefined, c.value⟩) ⟨[], true⟩ [("a", ⟨1, []⟩)] 0
        [("a", .num 1), ("hasOwnProperty", .num 2)] []).result = []) ∧
    (properties_thrown ⟨[], true⟩ [("__proto__", ⟨1, []⟩)] [("__proto__", .num 5)] = none ∧
    properties_visited ⟨[], true⟩ [("__proto__", ⟨1, []⟩)] [("__proto__", .num 5)]
        = ["__proto__"] ∧
    (properties_children ⟨[], true⟩ [("__proto__", ⟨1, []⟩)] 0 [("__proto__", .num 5)])
        = [⟨.str "__proto__", .num 5, .obj 1 [], .obj 0 [("__proto__", .num 5)]⟩] ∧
    (properties_async (fun c => ⟨.null, .undefined, c.value⟩) ⟨[], true⟩
        [("__proto__", ⟨1, []⟩)] 0 [("__proto__", .num 5)] ["__proto__"]).result = []) := by
  refine ⟨⟨rfl, rfl, rfl⟩, ⟨rfl, rfl, rfl, rfl⟩⟩

/-- With a falsy `additionalProperties`, a property is written exactly when it is declared and
is present or has a default. -/
theorem properties_written_falsy (rt : Runtime) (field : Field) (accept : PropertiesSchema)
    (addr : Nat) (value : Obj)
    (hadd : truthy (getProp field.rules "additionalProperties") = false) (p : String) :
    (properties_written rt field accept addr value p).isSome = true ↔
      ∃ node, schemaOf accept p = some node ∧
        ¬ (ownsKey value p = false ∧ ownsKey node.rules "default" = false) := by
  unfold properties_written properties_schema
  rw [additionalProperty_falsy field hadd]
  cases hs : schemaOf accept p with
  | none => simp [strictEq, truthy]
  | some node =>
    cases hv : ownsKey value p
    · cases hd : ownsKey node.rules "default" <;> simp [hd]
    · simp

/-- C2, amended.  `properties`, key set when `additionalProperties` is false or absent (or any
other falsy value): whatever the children report and in whatever order the visited properties
complete, a name is a key of the assembled `result` exactly when it is not `__proto__`, the
loop visits it, it is declared in the schema and it is either an own property of the input or
declared with an own `default`; no undeclared name is a key of the result.  When neither the
schema, nor the value, nor a child schema owns a key named `hasOwnProperty`, the loop visits
every declared name, so the keys are the declared names other than `__proto__`, minus those
absent from the input without an own `default`. -/
theorem properties_keys_closed (rt : Runtime) (field : Field) (accept : PropertiesSchema)
    (addr : Nat) (value : Obj) (order : List String)
    (hadd : truthy (getProp field.rules "additionalProperties") = false)
    (hperm : order.Perm (properties_visited field accept value)) (p : String) :
    (p ∈ keys (properties_async rt field accept addr value order).result ↔
      p ≠ "__proto__" ∧ p ∈ properties_visited field accept value ∧
      ∃ node, schemaOf accept p = some node ∧
        ¬ (ownsKey value p = false ∧ ownsKey node.rules "default" = false)) ∧
    (schemaOf accept p = none →
      p ∉ keys (properties_async rt field accept addr value order).result) ∧
    (ownsKey accept "hasOwnProperty" = false → ownsKey value "hasOwnProperty" = false →
      (∀ q node, schemaOf accept q = some node →
        ownsKey node.rules "hasOwnProperty" = false) →
      (p ∈ keys (properties_async rt field accept addr value order).result ↔
        p ≠ "__proto__" ∧
        ∃ node, schemaOf accept p = some node ∧
          ¬ (ownsKey value p = false ∧ ownsKey node.rules "default" = false))) := by
  have hiff : p ∈ keys (properties_async rt field accept addr value order).result ↔
      p ≠ "__proto__" ∧ p ∈ properties_visited field accept value ∧
      ∃ node, schemaOf accept p = some node ∧
        ¬ (ownsKey value p = false ∧ ownsKey node.rules "default" = false) := by
    rw [properties_result_keys rt field accept addr value order hperm p,
      properties_written_falsy rt field accept addr value hadd p]
  refine ⟨hiff, fun hnone hmem => ?_, fun ha hv hn => ?_⟩
  · obtain ⟨_, _, node, hs, _⟩ := hiff.mp hmem
    rw [hnone] at hs
    cases hs
  · rw [hiff, properties_visited_of_plain field accept value ha hv hn]
    constructor
    · rintro ⟨h1, _, h3⟩
      exact ⟨h1, h3⟩
    · rintro ⟨h1, node, hs, h3⟩
      exact ⟨h1, (mem_workingSet accept value p).mpr
        (Or.inl (schemaOf_mem_keys accept p node hs)), node, hs, h3⟩

/-- Witness of C2: schema `{a: {}, c: {default: 3}, d: {}}` on the value `{a: 1, z: 2}`,
no `additionalProperties`: the key `c` is in the result and the key `z` is not. -/
theorem properties_keys_closed_witness :
    "c" ∈ keys (properties_async (fun c => ⟨.null, .undefined, c.value⟩) ⟨[], true⟩
      [("a", ⟨1, []⟩), ("c", ⟨2, [("default", .num 3)]⟩), ("d", ⟨3, []⟩)] 0
      [("a", .num 1), ("z", .num 2)] ["a", "c", "d", "z"]).result ∧
    "z" ∉ keys (properties_async (fun c => ⟨.null, .undefined, c.value⟩) ⟨[], true⟩
      [("a", ⟨1, []⟩), ("c", ⟨2, [("default", .num 3)]⟩), ("d", ⟨3, []⟩)] 0
      [("a", .num 1), ("z", .num 2)] ["a", "c", "d", "z"]).result := by
  have hvis : properties_visited ⟨[], true⟩
      [("a", ⟨1, []⟩), ("c", ⟨2, [("default", .num 3)]⟩), ("d", ⟨3, []⟩)]
      [("a", .num 1), ("z", .num 2)] = ["a", "c", "d", "z"] := rfl
  have hperm : ["a", "c", "d", "z"].Perm
      (properties_visited ⟨[], true⟩
        [("a", ⟨1, []⟩), ("c", ⟨2, [("default", .num 3)]⟩), ("d", ⟨3, []⟩)]
        [("a", .num 1), ("z", .num 2)]) := by
    rw [hvis]
  constructor
  · exact (properties_keys_closed (fun c => ⟨.null, .undefined, c.value⟩) ⟨[], true⟩
      [("a", ⟨1, []⟩), ("c", ⟨2, [("default", .num 3)]⟩), ("d", ⟨3, []⟩)] 0
      [("a", .num 1), ("z", .num 2)] ["a", "c", "d", "z"] rfl hperm "c").1.mpr
      ⟨by decide, by rw [hvis]; decide, ⟨2, [("default", .num 3)]⟩, rfl, by decide⟩
  · exact (properties_keys_closed (fun c => ⟨.null, .undefined, c.value⟩) ⟨[], true⟩
      [("a", ⟨1, []⟩), ("c", ⟨2, [("default", .num 3)]⟩), ("d", ⟨3, []⟩)] 0
      [("a", .num 1), ("z", .num 2)] ["a", "c", "d", "z"] rfl hperm "z").2.1 rfl

/-- C3. `properties`, join on the empty working set: with the empty schema on the empty
object the working set is empty, the counter starts at 0, no `end` call is ever made, and the
continuation given to `field.async` finishes without a call of `done`. -/
theorem properties_empty_never_done (rt : Runtime) (rules : Obj) (addr : Nat) :
    workingSet [] [] = [] ∧
    (properties_validate rt [] [] addr [] ⟨rules, true⟩).async = some ⟨some 0, [], []⟩ := by
  constructor <;> rfl

/-- C4. `items`, join on the empty array: no child is created, the counter starts at 0, no
`end` call is ever made, and the continuation given to `field.async` finishes without a call
of `done`. -/
theorem items_empty_never_done (rt : Runtime) (accept : JSVal) (addr : Nat) (field : Field) :
    (items_validate rt [] accept (.arr addr []) field).children = [] ∧
    (items_validate rt [] accept (.arr addr []) field).async = some ⟨some 0, [], []⟩ := by
  constructor <;> rfl

/-- C5. First error wins, in `items` and in `properties`: when the completions before a child
are all without error and that child reports a truthy error, then over the whole run `done`
is called exactly once, and its argument is the error of that child, whatever the later
completions report.  For `properties` the completions are those of the properties the loop
visits, in any order, so the statement covers a loop that a throw has cut short. -/
theorem first_error_wins :
    (∀ (rt : Runtime) (accept : JSVal) (addr : Nat) (items : List JSVal)
        (pre post : List Nat) (i : Nat),
        (pre ++ i :: post).Perm (List.range items.length) →
        (∀ j ∈ pre, truthy (rt (items_child accept addr items j)).err = false) →
        truthy (rt (items_child accept addr items i)).err = true →
        (items_async rt accept addr items (pre ++ i :: post)).doneCalls.map (fun d => d.args)
          = [[(rt (items_child accept addr items i)).err]]) ∧
    (∀ (rt : Runtime) (field : Field) (accept : PropertiesSchema) (addr : Nat) (value : Obj)
        (pre post : List String) (a : String) (acceptProperty : JSVal),
        (pre ++ a :: post).Perm (properties_visited field accept value) →
        (∀ b ∈ pre, ∀ sb, properties_delegated field accept value b = .ok (some sb) →
          truthy (rt (properties_child addr value b sb)).err = false) →
        properties_delegated field accept value a = .ok (some acceptProperty) →
        truthy (rt (properties_child addr value a acceptProperty)).err = true →
        (properties_async rt field accept addr value (pre ++ a :: post)).doneCalls.map
            (fun d => d.args)
          = [[(rt (properties_child addr value a acceptProperty)).err]]) := by
  constructor
  · intro rt accept addr items pre post i hperm hpre hi
    have hlen : (pre ++ i :: post).length = items.length := by
      rw [hperm.length_eq, List.length_range]
    have hlt : pre.length < items.length := by
      rw [← hlen]
      simp
    have hpre' : ∀ j ∈ pre, truthy (items_err rt accept addr items j) = false := by
      intro j hj
      unfold items_err
      rw [hpre j hj]
      rfl
    have hi' : items_err rt accept addr items i = (rt (items_child accept addr items i)).err := by
      simp [items_err, hi]
    have h := join_fold_error (items_callback rt accept addr items)
      (items_write rt accept addr items) (items_err rt accept addr items) pre post i
      (fun a _ t => items_callback_eq rt accept addr items a t)
      ⟨some items.length, [], []⟩ items.length hpre' (by rw [hi']; exact hi) rfl hlt
    unfold items_async
    rw [h, hi']
    rfl
  · intro rt field accept addr value pre post a acceptProperty hperm hpre hdel ha
    have hreach : ∀ b ∈ pre ++ a :: post, properties_reaches field accept value b = true :=
      fun b hb => reaches_of_mem_visited field accept value b (hperm.mem_iff.mp hb)
    have hmem_a : a ∈ pre ++ a :: post :=
      List.mem_append.mpr (Or.inr (List.mem_cons_self a post))
    have hlen : (pre ++ a :: post).length ≤ (workingSet accept value).length := by
      rw [hperm.length_eq]
      exact length_visited_le field accept value
    have hlt : pre.length < (workingSet accept value).length := by
      have : pre.length < (pre ++ a :: post).length := by simp
      omega
    have hpre' : ∀ b ∈ pre, truthy (properties_err rt field accept addr value b) = false := by
      intro b hb
      have hb' : b ∈ pre ++ a :: post := List.mem_append.mpr (Or.inl hb)
      have hd := properties_delegated_of_reaches field accept value b (hreach b hb')
      unfold properties_err
      cases hs : properties_schema field accept value b with
      | none => rfl
      | some sb =>
        rw [hs] at hd
        exact hpre b hb sb hd
    have hsa : properties_schema field accept value a = some acceptProperty := by
      have hd := properties_delegated_of_reaches field accept value a (hreach a hmem_a)
      rw [hdel] at hd
      injection hd with hd
      exact hd.symm
    have ha' : properties_err rt field accept addr value a =
        (rt (properties_child addr value a acceptProperty)).err := by
      unfold properties_err
      rw [hsa]
    have h := join_fold_error (properties_step rt field accept addr value)
      (properties_write rt field accept addr value)
      (properties_err rt field accept addr value) pre post a
      (fun b hb t => properties_step_of_reaches rt field accept addr value b (hreach b hb) t)
      ⟨some (workingSet accept value).length, [], []⟩ (workingSet accept value).length
      hpre' (by rw [ha']; exact ha) rfl hlt
    unfold properties_async
    rw [h, ha']
    rfl

/-- Witness of C5, with a runtime in which a child fails with its own value as the error
when that value is truthy.  The array `[undefined, "x", "y"]`, children reporting in the
order 0, 2, 1: `done` gets `"y"`.  The object `{a: "ea", b: "eb", c: null}` under the schema
`{a: {}, b: {}, c: {}}`, completing in the order c, b, a: `done` gets `"eb"`. -/
theorem first_error_wins_witness :
    ((items_async (fun c => ⟨c.value, .undefined, c.value⟩) .null 0
        [.undefined, .str "x", .str "y"] ([0] ++ 2 :: [1])).doneCalls.map (fun d => d.args)
      = [[JSVal.str "y"]]) ∧
    ((properties_async (fun c => ⟨c.value, .undefined, c.value⟩) ⟨[], true⟩
        [("a", ⟨1, []⟩), ("b", ⟨2, []⟩), ("c", ⟨3, []⟩)] 0
        [("a", .str "ea"), ("b", .str "eb"), ("c", .null)]
        (["c"] ++ "b" :: ["a"])).doneCalls.map (fun d => d.args)
      = [[JSVal.str "eb"]]) := by
  constructor
  · exact first_error_wins.1 (fun c => ⟨c.value, .undefined, c.value⟩) .null 0
      [.undefined, .str "x", .str "y"] [0] [1] 2 (by decide)
      (by
        intro j hj
        have hj0 : j = 0 := by simpa using hj
        subst hj0
        rfl)
      (by decide)
  · have hvis : properties_visited ⟨[], true⟩
        [("a", ⟨1, []⟩), ("b", ⟨2, []⟩), ("c", ⟨3, []⟩)]
        [("a", .str "ea"), ("b", .str "eb"), ("c", .null)] = ["a", "b", "c"] := rfl
    exact first_error_wins.2 (fun c => ⟨c.value, .undefined, c.value⟩) ⟨[], true⟩
      [("a", ⟨1, []⟩), ("b", ⟨2, []⟩), ("c", ⟨3, []⟩)] 0
      [("a", .str "ea"), ("b", .str "eb"), ("c", .null)] ["c"] ["a"] "b"
      (SchemaNode.toVal ⟨2, []⟩) (by rw [hvis]; decide)
      (by
        intro b hb sb hsb
        have hbc : b = "c" := by simpa using hb
        subst hbc
        have : sb = SchemaNode.toVal ⟨3, []⟩ := by
          have h3 : properties_delegated ⟨[], true⟩
              [("a", ⟨1, []⟩), ("b", ⟨2, []⟩), ("c", ⟨3, []⟩)]
              [("a", .str "ea"), ("b", .str "eb"), ("c", .null)] "c"
              = .ok (some (SchemaNode.toVal ⟨3, []⟩)) := rfl
          rw [h3] at hsb
          injection hsb with hsb
          exact (Option.some.inj hsb).symm
        subst this
        rfl)
      rfl (by decide)

/-- C6. What `done` receives: on the array `[7]` with a succeeding child, `items` calls
`done` once with the single argument `undefined` while its local `result` is `[7]`; on the
object `{a: 1}` under the schema `{a: {}}`, the child reporting `(null, undefined, 1)`,
`properties` calls `done` once with the single argument `null` while its local `result` is
`{a: 1}`.  The assembled result is not among the arguments. -/
theorem done_receives_only_error :
    (items_async (fun c => ⟨.undefined, .undefined, c.value⟩) .null 0 [.num 7] [0]).doneCalls
      = [⟨[.undefined], [some (.num 7)]⟩] ∧
    (properties_async (fun c => ⟨.null, .undefined, c.value⟩) ⟨[], true⟩
        [("a", ⟨1, []⟩)] 0 [("a", .num 1)] ["a"]).doneCalls
      = [⟨[.null], [("a", .num 1)]⟩] := by
  constructor <;> rfl

/-- C7, as stated, fails.  `required: ["a"]` against the value `{hasOwnProperty: 1}`, which
does not own `a`: the call `value.hasOwnProperty("a")` throws a `TypeError` and no issue is
raised. -/
theorem required_throws_on_shadowed_method :
    ownsKey [("hasOwnProperty", JSVal.num 1)] "a" = false ∧
    required_validate ["a"] [("hasOwnProperty", .num 1)]
      = .error (.typeError "hasOwnProperty") := by
  constructor <;> rfl

/-- C7, amended.  `required`, on a value that does not own a property named `hasOwnProperty`:
the call returns `undefined` and the issues it raises are, in list order, one issue
`{path: name, rule: "required"}` for each listed name that is not an own property of the
value, and none for the names that are; so `required: ["a"]` against `{}` raises exactly the
issue for `"a"`, and `required: ["a", "b"]` against `{"b": 1}` raises exactly the issue for
`"a"`. -/
theorem required_issues :
    (∀ (accept : List String) (value : Obj), ownsKey value "hasOwnProperty" = false →
      required_validate accept value =
        .ok ⟨.undefined,
          (accept.filter (fun name => !ownsKey value name)).map
            (fun name => [("path", JSVal.str name), ("rule", JSVal.str "required")])⟩) ∧
    required_validate ["a"] []
      = .ok ⟨.undefined, [[("path", JSVal.str "a"), ("rule", JSVal.str "required")]]⟩ ∧
    required_validate ["a", "b"] [("b", .num 1)]
      = .ok ⟨.undefined, [[("path", JSVal.str "a"), ("rule", JSVal.str "required")]]⟩ := by
  refine ⟨fun accept value h => ?_, rfl, rfl⟩
  unfold required_validate
  rw [required_loop_plain value h]
  simp

/-- Witness of C7: `required: ["a", "b", "c"]` against `{"b": 1}` raises the issues for `"a"`
and `"c"`. -/
theorem required_issues_witness :
    required_validate ["a", "b", "c"] [("b", .num 1)] =
      .ok ⟨.undefined,
        (["a", "b", "c"].filter (fun name => !ownsKey [("b", JSVal.num 1)] name)).map
          (fun name => [("path", JSVal.str name), ("rule", JSVal.str "required")])⟩ :=
  required_issues.1 ["a", "b", "c"] [("b", .num 1)] rfl

/-- C8. `minimum` and `maximum` with their exclusive siblings: on numbers `v` and `b`,
`minimum` answers `v > b` when `exclusiveMinimum` is truthy in the rule set of the field and
`v >= b` otherwise, and `maximum` answers `v < b` when `exclusiveMaximum` is truthy there and
`v <= b` otherwise; so `minimum: 5` with `exclusiveMinimum: true` accepts 6 and rejects 5,
and without the sibling accepts 5. -/
theorem minimum_maximum_exclusive :
    (∀ (v b : ℚ) (field : Field),
      minimum_validate (.num b) (.num v) field =
        (if truthy (getProp field.rules "exclusiveMinimum") then decide (v > b)
          else decide (v ≥ b)) ∧
      maximum_validate (.num b) (.num v) field =
        (if truthy (getProp field.rules "exclusiveMaximum") then decide (v < b)
          else decide (v ≤ b))) ∧
    minimum_validate (.num 5) (.num 6)
        ⟨[("minimum", .num 5), ("exclusiveMinimum", .bool true)], false⟩ = true ∧
    minimum_validate (.num 5) (.num 5)
        ⟨[("minimum", .num 5), ("exclusiveMinimum", .bool true)], false⟩ = false ∧
    minimum_validate (.num 5) (.num 5) ⟨[("minimum", .num 5)], false⟩ = true := by
  refine ⟨fun v b field => ⟨?_, ?_⟩, by decide, by decide, by decide⟩
  · unfold minimum_validate jsGt jsGe lessThan
    by_cases h : truthy (getProp field.rules "exclusiveMinimum") = true
    · simp [h, toNumber]
    · simp only [h, toNumber, if_false, Bool.false_eq_true]
      by_cases hvb : v < b
      · simp [hvb, not_le.mpr hvb]
      · simp [hvb, not_lt.mp hvb]
  · unfold maximum_validate jsLt jsLe lessThan
    by_cases h : truthy (getProp field.rules "exclusiveMaximum") = true
    · simp [h, toNumber]
    · simp only [h, toNumber, if_false, Bool.false_eq_true]
      by_cases hvb : b < v
      · simp [hvb, not_le.mpr hvb]
      · simp [hvb, not_lt.mp hvb]

/-- C9, as stated, fails: on `[1, 2, 2, 3]` with accept `true` the paths of the issues raised
are not the single path `1`. -/
theorem uniqueItems_example_path_not_one :
    ¬ ((uniqueItems_validate (.bool true) (.arr 0 [.num 1, .num 2, .num 2, .num 3])).issues.map
        (fun issue => getProp issue "path") = [JSVal.num 1]) := by
  intro h
  have hp : (uniqueItems_validate (.bool true)
      (.arr 0 [.num 1, .num 2, .num 2, .num 3])).issues.map (fun issue => getProp issue "path")
      = [JSVal.num 2] := rfl
  rw [hp] at h
  have h2 : (2 : ℚ) = 1 := by
    injection h with h _
    injection h
  norm_num at h2

/-- C9, amended. On `[1, 2, 2, 3]` with accept `true`, `uniqueItems` raises exactly one issue,
`{path: 2, rule: "uniqueItems", accept: true}`: its path is the index of the second
occurrence, which is 2. -/
theorem uniqueItems_example_path_two :
    (uniqueItems_validate (.bool true) (.arr 0 [.num 1, .num 2, .num 2, .num 3])).issues
      = [[("path", .num 2), ("rule", .str "uniqueItems"), ("accept", .bool true)]] := by
  rfl

/-- C10. `uniqueItems`, one issue per duplicate index: for every array and every truthy
accept, the issues raised are, in increasing index order, the issue
`{path: i, rule: "uniqueItems", accept: true}` for each index `i` whose item is strictly
equal to the item of some earlier index, and nothing else. -/
theorem uniqueItems_issues (accept : JSVal) (addr : Nat) (items : List JSVal)
    (haccept : truthy accept = true) :
    (uniqueItems_validate accept (.arr addr items)).issues =
      ((List.range items.length).filter
        (fun i => (items.take i).any
          (fun earlier => strictEq earlier (items.getD i .undefined)))).map
        (fun (i : Nat) => [("path", JSVal.num (i : ℚ)), ("rule", JSVal.str "uniqueItems"),
          ("accept", JSVal.bool true)]) := by
  unfold uniqueItems_validate
  simp only [haccept, Bool.not_true, Bool.false_eq_true, if_false]
  rw [uniqueItems_loop_spec items [] [] 0 [] (fun _ => rfl), laterDuplicates_eq items [] 0]
  simp only [List.nil_append, Nat.zero_add, List.map_map]
  rfl

/-- Witness of C10: `[1, 2, 2, 1, 2]` with accept `true` raises the issues of the indices
2, 3 and 4. -/
theorem uniqueItems_issues_witness :
    (uniqueItems_validate (.bool true)
        (.arr 0 [.num 1, .num 2, .num 2, .num 1, .num 2])).issues.map
        (fun issue => getProp issue "path")
      = [JSVal.num ((2 : Nat) : ℚ), JSVal.num ((3 : Nat) : ℚ), JSVal.num ((4 : Nat) : ℚ)] := by
  rw [uniqueItems_issues (.bool true) 0 [.num 1, .num 2, .num 2, .num 1, .num 2] rfl]
  rfl

/-- C11. `default` filter: it returns its argument when the value is `undefined` and the
value itself, unchanged, in every other case; so `default: "x"` on an absent value gives
`"x"`, and an explicit `null` stays `null`. -/
theorem default_filter_spec :
    (∀ a : JSVal, default_filter a .undefined = a) ∧
    (∀ a v : JSVal, v ≠ .undefined → default_filter a v = v) ∧
    default_filter (.str "x") .undefined = .str "x" ∧
    default_filter (.str "x") .null = .null := by
  refine ⟨fun a => rfl, fun a v hv => ?_, rfl, rfl⟩
  cases v with
  | undefined => exact absurd rfl hv
  | null => rfl
  | bool b => rfl
  | num n => rfl
  | nan => rfl
  | str s => rfl
  | arr addr items => rfl
  | obj addr props => rfl

/-- Witness of C11: the value `false` passes through a `default: 1`. -/
theorem default_filter_spec_witness :
    default_filter (.num 1) (.bool false) = .bool false :=
  default_filter_spec.2.1 (.num 1) (.bool false) (fun h => by cases h)

/-- C15. `type`, the `"null"` and `"integer"` cases: for every value, both calls end in a
`ReferenceError`, the first on the name `规则`, the second on the name `number`; neither
returns `true` for any value, `null` and whole numbers included. -/
theorem type_null_integer_throw (v : JSVal) :
    type_validate (.str "null") v = .error (.referenceError "规则") ∧
    type_validate (.str "integer") v = .error (.referenceError "number") := by
  constructor <;> simp [type_validate, strictEq]

/-- C16. `type` can throw: a mismatch under `"null"` (the value 1) and a mismatch under
`"integer"` (the value `"x"`) end in a `ReferenceError` instead of returning `false`, while
the other labels return a boolean, here `false` for `"array"` on 1 and for `"string"` on 1. -/
theorem type_mismatch_throws :
    type_validate (.str "null") (.num 1) = .error (.referenceError "规则") ∧
    type_validate (.str "integer") (.str "x") = .error (.referenceError "number") ∧
    type_validate (.str "array") (.num 1) = .ok false ∧
    type_validate (.str "string") (.num 1) = .ok false := by
  refine ⟨?_, ?_, ?_, ?_⟩ <;> simp [type_validate, strictEq, isArray, jsTypeof]

/-- C17. Shape mismatches are silent.  When `field.isObject()` is false, `properties` returns
`undefined`, raises no issue, creates no child and does not call `field.async`, whatever own
properties the value has; `items` does the same on every value that is not an array;
`uniqueItems`, which never creates a child or calls `field.async`, returns `undefined` and
raises no issue on every value that is not an array, and on every value when its argument is
falsy. -/
theorem shape_mismatch_silent :
    (∀ (rt : Runtime) (order : List String) (accept : PropertiesSchema) (addr : Nat)
        (value : Obj) (field : Field), field.isObject = false →
        properties_validate rt order accept addr value field = ⟨.undefined, [], [], none⟩) ∧
    (∀ (rt : Runtime) (order : List Nat) (accept value : JSVal) (field : Field),
        isArray value = false →
        items_validate rt order accept value field = ⟨.undefined, [], [], none⟩) ∧
    (∀ (accept value : JSVal), isArray value = false →
        uniqueItems_validate accept value = ⟨.undefined, []⟩) ∧
    (∀ (accept value : JSVal), truthy accept = false →
        uniqueItems_validate accept value = ⟨.undefined, []⟩) := by
  refine ⟨?_, ?_, ?_, ?_⟩
  · intro rt order accept addr value field h
    simp [properties_validate, h]
  · intro rt order accept value field h
    cases value <;> simp [isArray] at h <;> rfl
  · intro accept value h
    unfold uniqueItems_validate
    split
    · rfl
    · cases value <;> simp [isArray] at h <;> rfl
  · intro accept value h
    simp [uniqueItems_validate, h]

/-- Witness of C17: `properties` under `isObject() = false`, `items` and `uniqueItems` on the
string `"ab"`, and `uniqueItems: false` on an array with a duplicate. -/
theorem shape_mismatch_silent_witness :
    properties_validate (fun c => ⟨.null, .undefined, c.value⟩) ["a"] [("a", ⟨1, []⟩)] 0 []
        ⟨[], false⟩ = ⟨.undefined, [], [], none⟩ ∧
    items_validate (fun c => ⟨.null, .undefined, c.value⟩) [0, 1] (.obj 1 []) (.str "ab")
        ⟨[], false⟩ = ⟨.undefined, [], [], none⟩ ∧
    uniqueItems_validate (.bool true) (.str "ab") = ⟨.undefined, []⟩ ∧
    uniqueItems_validate (.bool false) (.arr 0 [.num 1, .num 1]) = ⟨.undefined, []⟩ :=
  ⟨shape_mismatch_silent.1 _ _ _ _ _ _ rfl, shape_mismatch_silent.2.1 _ _ _ _ _ rfl,
    shape_mismatch_silent.2.2.1 _ _ rfl, shape_mismatch_silent.2.2.2 _ _ rfl⟩

/-- C19. `uniqueItems: true` on the empty array: the scan raises no issue, and the rule
returns `false`, the outcome of the trailing comparison `0 >= true`. -/
theorem uniqueItems_empty_returns_false (addr : Nat) :
    (uniqueItems_validate (.bool true) (.arr addr [])).issues = [] ∧
    (uniqueItems_validate (.bool true) (.arr addr [])).ret = .bool false := by
  constructor
  · rfl
  · simp [uniqueItems_validate, truthy, jsGe, lessThan, toNumber]

/-- C18. `divisibleBy` on whole numbers: for all integers `v` and `a`, of either sign, the
rule returns `true` exactly when `a` is not zero and `a` divides `v`; with `a = 0` it returns
`false` for every `v`. -/
theorem divisibleBy_spec (v a : Int) :
    (divisibleBy_validate (.num a) (.num v) = true ↔ a ≠ 0 ∧ a ∣ v) ∧
    divisibleBy_validate (.num ((0 : Int) : ℚ)) (.num v) = false := by
  constructor
  · unfold divisibleBy_validate jsRem
    simp only [toNumber]
    by_cases ha : a = 0
    · subst ha
      simp [strictEq]
    · have haq : (a : ℚ) ≠ 0 := by exact_mod_cast ha
      simp only [haq, if_false, strictEq, decide_eq_true_eq]
      rw [rem_zero_iff_dvd v a ha]
      exact ⟨fun h => ⟨ha, h⟩, fun h => h.2⟩
  · simp [divisibleBy_validate, jsRem, toNumber, strictEq]

/-- C20. `minItems` and `maxItems`: for every value and every bound `n`, `minItems` is true
exactly when the value is an array of length at least `n`, and `maxItems` exactly when it is
an array of length at most `n`; both are `false` on every value that is not an array, and on
an array both are true exactly when its length is `n`. -/
theorem minItems_maxItems_spec :
    (∀ (n : Nat) (v : JSVal),
      (minItems_validate (.num n) v = true ↔
        ∃ addr items, v = .arr addr items ∧ n ≤ items.length) ∧
      (maxItems_validate (.num n) v = true ↔
        ∃ addr items, v = .arr addr items ∧ items.length ≤ n)) ∧
    (∀ (n : Nat) (v : JSVal), isArray v = false →
      minItems_validate (.num n) v = false ∧ maxItems_validate (.num n) v = false) ∧
    (∀ (n addr : Nat) (items : List JSVal),
      (minItems_validate (.num n) (.arr addr items) = true ∧
        maxItems_validate (.num n) (.arr addr items) = true) ↔ items.length = n) := by
  have hmin : ∀ (n addr : Nat) (items : List JSVal),
      minItems_validate (.num n) (.arr addr items) = true ↔ n ≤ items.length := by
    intro n addr items
    simp only [minItems_validate, jsGe, lessThan, toNumber, beq_iff_eq, Option.some.injEq,
      decide_eq_false_iff_not, not_lt, Nat.cast_le]
  have hmax : ∀ (n addr : Nat) (items : List JSVal),
      maxItems_validate (.num n) (.arr addr items) = true ↔ items.length ≤ n := by
    intro n addr items
    simp only [maxItems_validate, jsLe, lessThan, toNumber, beq_iff_eq, Option.some.injEq,
      decide_eq_false_iff_not, not_lt, Nat.cast_le]
  refine ⟨fun n v => ⟨?_, ?_⟩, fun n v hv => ?_, fun n addr items => ?_⟩
  · cases v with
    | arr addr items =>
      rw [hmin]
      exact ⟨fun h => ⟨addr, items, rfl, h⟩, fun ⟨_, _, he, h⟩ => by cases he; exact h⟩
    | _ => simp [minItems_validate]
  · cases v with
    | arr addr items =>
      rw [hmax]
      exact ⟨fun h => ⟨addr, items, rfl, h⟩, fun ⟨_, _, he, h⟩ => by cases he; exact h⟩
    | _ => simp [maxItems_validate]
  · cases v <;> simp [isArray] at hv <;> exact ⟨rfl, rfl⟩
  · rw [hmin, hmax]
    omega

/-- Witness of C20: on the string `"ab"`, not an array, both rules return `false` at the
bound 2. -/
theorem minItems_maxItems_spec_witness :
    minItems_validate (.num ((2 : Nat) : ℚ)) (.str "ab") = false ∧
    maxItems_validate (.num ((2 : Nat) : ℚ)) (.str "ab") = false :=
  minItems_maxItems_spec.2.1 2 (.str "ab") rfl

/-- A name of the working set is visited when neither the schema, nor the value, nor a child
schema owns a key named `hasOwnProperty`. -/
theorem mem_visited_of_plain (field : Field) (accept : PropertiesSchema) (value : Obj)
    (ha : ownsKey accept "hasOwnProperty" = false)
    (hv : ownsKey value "hasOwnProperty" = false)
    (hn : ∀ q node, schemaOf accept q = some node →
      ownsKey node.rules "hasOwnProperty" = false)
    (k : String) (hk : k ∈ workingSet accept value) :
    k ∈ properties_visited field accept value := by
  rw [properties_visited_of_plain field accept value ha hv hn]
  exact hk

/-- C13, as stated, fails.  The value `{"__proto__": 5}` under the empty schema with
`additionalProperties: true`: the key is visited, but the write `result["__proto__"] = 5`
goes to the prototype setter and `result` has no key.  The value `{z: 1}` under the schema
`{hasOwnProperty: {}}` with `additionalProperties` a schema node: the first visit throws at
`accept.hasOwnProperty`, `z` is never visited and no child is created. -/
theorem additionalProperties_policy_fails :
    (properties_thrown ⟨[("additionalProperties", .bool true)], true⟩ []
        [("__proto__", .num 5)] = none ∧
    properties_visited ⟨[("additionalProperties", .bool true)], true⟩ []
        [("__proto__", .num 5)] = ["__proto__"] ∧
    (properties_async (fun c => ⟨.null, .undefined, c.value⟩)
        ⟨[("additionalProperties", .bool true)], true⟩ [] 0 [("__proto__", .num 5)]
        ["__proto__"]).result = []) ∧
    (properties_thrown ⟨[("additionalProperties", .obj 9 [])], true⟩
        [("hasOwnProperty", ⟨1, []⟩)] [("z", .num 1)] = some (.typeError "hasOwnProperty") ∧
    properties_visited ⟨[("additionalProperties", .obj 9 [])], true⟩
        [("hasOwnProperty", ⟨1, []⟩)] [("z", .num 1)] = [] ∧
    properties_children ⟨[("additionalProperties", .obj 9 [])], true⟩
        [("hasOwnProperty", ⟨1, []⟩)] 0 [("z", .num 1)] = []) := by
  refine ⟨⟨rfl, rfl, rfl⟩, ⟨rfl, rfl, rfl⟩⟩

/-- C13, amended.  `additionalProperties` and an undeclared key `k` of the value, for every
completion order of the visited properties.  When `field.rules.additionalProperties` is
exactly `true`, no child has the path `k`, and if the loop visits `k` and `k` is not
`__proto__` then `result[k]` is `value[k]`.  When it is truthy and not `true`, if the loop
visits `k` then exactly one child has the path `k`, created with the arguments
`(k, value[k], additionalProperties, value)`, and if moreover `k` is not `__proto__` then
`result[k]` is the value that child reports.  When it is falsy (false or absent), no child has
the path `k` and `k` is not a key of `result`.  The loop visits `k` whenever neither the
schema, nor the value, nor a child schema owns a key named `hasOwnProperty`. -/
theorem additionalProperties_policy (rt : Runtime) (field : Field) (accept : PropertiesSchema)
    (addr : Nat) (value : Obj) (order : List String) (k : String)
    (hperm : order.Perm (properties_visited field accept value))
    (hk : ownsKey value k = true) (hund : schemaOf accept k = none) :
    (getProp field.rules "additionalProperties" = .bool true →
      (properties_children field accept addr value).filter
        (fun c => strictEq c.path (.str k)) = [] ∧
      (k ∈ properties_visited field accept value → k ≠ "__proto__" →
        k ∈ keys (properties_async rt field accept addr value order).result ∧
        getProp (properties_async rt field accept addr value order).result k =
          getProp value k)) ∧
    (truthy (getProp field.rules "additionalProperties") = true →
      strictEq (getProp field.rules "additionalProperties") (.bool true) = false →
      (k ∈ properties_visited field accept value →
        (properties_children field accept addr value).filter
            (fun c => strictEq c.path (.str k)) =
          [⟨.str k, getProp value k, getProp field.rules "additionalProperties",
            .obj addr value⟩]) ∧
      (k ∈ properties_visited field accept value → k ≠ "__proto__" →
        k ∈ keys (properties_async rt field accept addr value order).result ∧
        getProp (properties_async rt field accept addr value order).result k =
          (rt ⟨.str k, getProp value k, getProp field.rules "additionalProperties",
            .obj addr value⟩).value)) ∧
    (truthy (getProp field.rules "additionalProperties") = false →
      (properties_children field accept addr value).filter
        (fun c => strictEq c.path (.str k)) = [] ∧
      k ∉ keys (properties_async rt field accept addr value order).result) ∧
    (ownsKey accept "hasOwnProperty" = false → ownsKey value "hasOwnProperty" = false →
      (∀ q node, schemaOf accept q = some node →
        ownsKey node.rules "hasOwnProperty" = false) →
      k ∈ properties_visited field accept value) := by
  have hws : k ∈ workingSet accept value :=
    (mem_workingSet accept value k).mpr (Or.inr ((ownsKey_iff value k).mp hk))
  have hkeys := properties_result_keys rt field accept addr value order hperm k
  refine ⟨fun htrue => ?_, fun htruthy hnot => ?_, fun hfalsy => ?_, fun ha hv hn =>
    mem_visited_of_plain field accept value ha hv hn k hws⟩
  · have hadd : additionalProperty field = .bool true := by
      simp [additionalProperty, htrue, truthy]
    have hdel : properties_schema field accept value k = none := by
      simp [properties_schema, hund, hadd, strictEq]
    have hwr : properties_written rt field accept addr value k = some (getProp value k) := by
      simp [properties_written, hdel, hund, hadd, strictEq]
    refine ⟨properties_children_not_delegated field accept addr value k hdel,
      fun hvis hproto => ?_⟩
    have hget := properties_result_get rt field accept addr value order hperm k hvis hproto
    rw [hwr] at hget hkeys
    exact ⟨hkeys.mpr ⟨hproto, hvis, rfl⟩, hget⟩
  · have hadd : additionalProperty field = getProp field.rules "additionalProperties" := by
      simp [additionalProperty, htruthy]
    have hdel : properties_schema field accept value k =
        some (getProp field.rules "additionalProperties") := by
      simp [properties_schema, hund, hadd, hnot, htruthy]
    have hwr : properties_written rt field accept addr value k =
        some (rt (properties_child addr value k
          (getProp field.rules "additionalProperties"))).value := by
      simp [properties_written, hdel]
    refine ⟨fun hvis => ?_, fun hvis hproto => ?_⟩
    · have hchildren := properties_children_undeclared field accept addr value k hk hund hvis
      rw [hdel] at hchildren
      exact hchildren
    · have hget := properties_result_get rt field accept addr value order hperm k hvis hproto
      rw [hwr] at hget hkeys
      exact ⟨hkeys.mpr ⟨hproto, hvis, rfl⟩, hget⟩
  · have hadd : additionalProperty field = .bool false := additionalProperty_falsy field hfalsy
    have hdel : properties_schema field accept value k = none := by
      simp [properties_schema, hund, hadd, strictEq, truthy]
    have hwr : properties_written rt field accept addr value k = none := by
      simp [properties_written, hdel, hund, hadd, strictEq]
    rw [hwr] at hkeys
    refine ⟨properties_children_not_delegated field accept addr value k hdel, fun hmem => ?_⟩
    have := (hkeys.mp hmem).2.2
    cases this

/-- Witness of C13: the value `{a: 1, z: 2}` under the schema `{a: {}}`, with
`additionalProperties` the schema node `{type: "number"}`: one child is created for `z`. -/
theorem additionalProperties_policy_witness :
    (properties_children ⟨[("additionalProperties", .obj 9 [("type", .str "number")])], true⟩
        [("a", ⟨1, []⟩)] 0 [("a", .num 1), ("z", .num 2)]).filter
        (fun c => strictEq c.path (.str "z")) =
      [⟨.str "z", .num 2, .obj 9 [("type", .str "number")],
        .obj 0 [("a", .num 1), ("z", .num 2)]⟩] := by
  have hvis : properties_visited
      ⟨[("additionalProperties", .obj 9 [("type", .str "number")])], true⟩
      [("a", ⟨1, []⟩)] [("a", .num 1), ("z", .num 2)] = ["a", "z"] := rfl
  exact ((additionalProperties_policy (fun c => ⟨.null, .undefined, c.value⟩)
      ⟨[("additionalProperties", .obj 9 [("type", .str "number")])], true⟩
      [("a", ⟨1, []⟩)] 0 [("a", .num 1), ("z", .num 2)] ["z", "a"] "z"
      (by rw [hvis]; decide) rfl rfl).2.1 rfl rfl).1 (by rw [hvis]; decide)

/-- C14, as stated, fails.  The empty object under the schema `{"__proto__": {default: 5}}`:
the property is visited, but the write of the default goes to the prototype setter and
`result` has no key.  The value `{hasOwnProperty: 1}` under the schema `{a: {default: 5}}`:
the visit of `a`, declared and absent, throws at `value.hasOwnProperty`, and the default is
never written. -/
theorem absent_declared_property_fails :
    (properties_thrown ⟨[], true⟩ [("__proto__", ⟨1, [("default", .num 5)]⟩)] [] = none ∧
    properties_visited ⟨[], true⟩ [("__proto__", ⟨1, [("default", .num 5)]⟩)] []
        = ["__proto__"] ∧
    (properties_async (fun c => ⟨.null, .undefined, c.value⟩) ⟨[], true⟩
        [("__proto__", ⟨1, [("default", .num 5)]⟩)] 0 [] ["__proto__"]).result = []) ∧
    (ownsKey [("hasOwnProperty", JSVal.num 1)] "a" = false ∧
    properties_thrown ⟨[], true⟩ [("a", ⟨1, [("default", .num 5)]⟩)]
        [("hasOwnProperty", .num 1)] = some (.typeError "hasOwnProperty") ∧
    properties_visited ⟨[], true⟩ [("a", ⟨1, [("default", .num 5)]⟩)]
        [("hasOwnProperty", .num 1)] = [] ∧
    (properties_async (fun c => ⟨.null, .undefined, c.value⟩) ⟨[], true⟩
        [("a", ⟨1, [("default", .num 5)]⟩)] 0 [("hasOwnProperty", .num 1)] []).result
      = []) := by
  refine ⟨⟨rfl, rfl, rfl⟩, ⟨rfl, rfl, rfl, rfl⟩⟩

/-- C14, amended.  A declared property `p` that the value does not own, for every completion
order of the visited properties: no child has the path `p` and the rule raises no issue; when
the child schema has an own `default`, the loop visits `p` and `p` is not `__proto__`,
`result[p]` is that `default`; when the child schema has no own `default`, `p` is not a key of
`result`.  The loop visits `p` whenever neither the schema, nor the value, nor a child schema
owns a key named `hasOwnProperty`. -/
theorem absent_declared_property (rt : Runtime) (field : Field) (accept : PropertiesSchema)
    (addr : Nat) (value : Obj) (order : List String) (p : String) (node : SchemaNode)
    (hperm : order.Perm (properties_visited field accept value))
    (hdecl : schemaOf accept p = some node) (habs : ownsKey value p = false) :
    (properties_children field accept addr value).filter
      (fun c => strictEq c.path (.str p)) = [] ∧
    (properties_validate rt order accept addr value field).issues = [] ∧
    (ownsKey node.rules "default" = true →
      p ∈ properties_visited field accept value → p ≠ "__proto__" →
      p ∈ keys (properties_async rt field accept addr value order).result ∧
      getProp (properties_async rt field accept addr value order).result p =
        getProp node.rules "default") ∧
    (ownsKey node.rules "default" = false →
      p ∉ keys (properties_async rt field accept addr value order).result) ∧
    (ownsKey accept "hasOwnProperty" = false → ownsKey value "hasOwnProperty" = false →
      (∀ q n, schemaOf accept q = some n → ownsKey n.rules "hasOwnProperty" = false) →
      p ∈ properties_visited field accept value) := by
  have hws : p ∈ workingSet accept value :=
    (mem_workingSet accept value p).mpr (Or.inl (schemaOf_mem_keys accept p node hdecl))
  have hkeys := properties_result_keys rt field accept addr value order hperm p
  have hdel : properties_schema field accept value p = none := by
    simp [properties_schema, hdecl, habs]
  refine ⟨properties_children_not_delegated field accept addr value p hdel, ?_,
    fun hdef hvis hproto => ?_, fun hdef => ?_, fun ha hv hn =>
      mem_visited_of_plain field accept value ha hv hn p hws⟩
  · unfold properties_validate
    split <;> rfl
  · have hwr : properties_written rt field accept addr value p =
        some (getProp node.rules "default") := by
      simp [properties_written, hdel, hdecl, hdef]
    have hget := properties_result_get rt field accept addr value order hperm p hvis hproto
    rw [hwr] at hget hkeys
    exact ⟨hkeys.mpr ⟨hproto, hvis, rfl⟩, hget⟩
  · have hwr : properties_written rt field accept addr value p = none := by
      simp [properties_written, hdel, hdecl, hdef]
    rw [hwr] at hkeys
    intro hmem
    have := (hkeys.mp hmem).2.2
    cases this

/-- Witness of C14: the empty object under the schema `{a: {default: 5}, b: {}}`: the result
holds `a: 5`. -/
theorem absent_declared_property_witness :
    getProp (properties_async (fun c => ⟨.null, .undefined, c.value⟩) ⟨[], true⟩
        [("a", ⟨1, [("default", .num 5)]⟩), ("b", ⟨2, []⟩)] 0 [] ["b", "a"]).result "a"
      = .num 5 := by
  have hvis : properties_visited ⟨[], true⟩
      [("a", ⟨1, [("default", .num 5)]⟩), ("b", ⟨2, []⟩)] [] = ["a", "b"] := rfl
  exact ((absent_declared_property (fun c => ⟨.null, .undefined, c.value⟩) ⟨[], true⟩
      [("a", ⟨1, [("default", .num 5)]⟩), ("b", ⟨2, []⟩)] 0 [] ["b", "a"] "a"
      ⟨1, [("default", .num 5)]⟩ (by rw [hvis]; decide) rfl rfl).2.2.1 rfl
      (by rw [hvis]; decide) (by decide)).2

/-- C12. Idempotence through `properties` breaks on an empty result.  The value `{z: 1}`
under the empty schema, without `additionalProperties`: the first pass calls `done` once
without error and has assembled the empty mapping; the second pass, run on that mapping, has
an empty working set and finishes without a call of `done`. -/
theorem properties_second_pass_never_done :
    (properties_async (fun c => ⟨.null, .undefined, c.value⟩) ⟨[], true⟩ [] 0
        [("z", .num 1)] ["z"]).doneCalls = [⟨[.undefined], []⟩] ∧
    (properties_validate (fun c => ⟨.null, .undefined, c.value⟩) [] [] 1
        (properties_async (fun c => ⟨.null, .undefined, c.value⟩) ⟨[], true⟩ [] 0
          [("z", .num 1)] ["z"]).result ⟨[], true⟩).async = some ⟨some 0, [], []⟩ := by
  constructor <;> rfl

end JsonSchema
